import Mathlib

/-!
# RummiKub solver: embedding of `rummikub.h` / `rummikub.cpp`

The solver keeps a hand of tiles and two vectors of tile vectors, `_runs` and
`_groups`.  `Solve` sorts a copy of the hand by denomination and calls the
backtracking search `SolveRec`, which places the tiles one at a time, last tile
of the working copy first, and asks `isLegal` at every leaf.

Modelling conventions.

* `std::vector` is a `List` in vector order: `push_back x` is `l ++ [x]`,
  `back` is the last element, `pop_back` is `dropLast`.
* `int` is `Int`.  The 13-slot array `counts` is a `List Nat` of length 13.
* Undefined behaviour of the C++ code (indexing outside an array or a vector,
  `pop_back` on an empty vector) is the fault `Fault.outOfBounds`.
* `SolveRec` is recursive with a mutable working hand passed by reference; the
  embedding threads the hand through every call and recurses on a fuel
  argument.  `Solve` supplies `a.size() + 1`, which is always enough
  (`SolveRec_fuel`).
* `std::sort` leaves the order of tiles of equal denomination unspecified, so
  `Solve` takes the sorting routine as a parameter (`SortImpl`): any function
  returning a permutation of its input in non-decreasing denomination order.
  `stableSort` is the executable instance used at concrete inputs.
-/

namespace Rummikub

/-! ## Data model (`rummikub.h`) -/

inductive Color where
  | Red | Green | Blue | Yellow
deriving DecidableEq, Repr

structure Tile where
  denomination : Int
  color : Color
deriving DecidableEq, Repr

/-- Source `TileComp::operator()`: strict comparison of denominations. -/
def TileComp (a b : Tile) : Bool := decide (a.denomination < b.denomination)

inductive Mode where
  | ADD_RUN | ADD_GROUP | EX_RUN | EX_GROUP
deriving DecidableEq, Repr

/-- Source `struct Action`.  The pointer field `_tiles` (always `&_runs` or `&_groups`,
in agreement with `_mode`) is never read by the solver and is left out. -/
structure Action where
  _tile : Tile
  index : Int
  _mode : Mode
deriving DecidableEq, Repr

/-- The data members of `class RummiKub`. -/
structure RummiKub where
  _hand : List Tile
  _groups : List (List Tile)
  _runs : List (List Tile)
deriving DecidableEq, Repr

/-- Undefined behaviour of the source, and exhaustion of the recursion fuel. -/
inductive Fault where
  | outOfBounds | outOfFuel
deriving DecidableEq, Repr

/-! ## Construction and accessors -/

/-- Source `RummiKub::RummiKub()`: empty hand, no groups, no runs. -/
def RummiKub.new : RummiKub := ⟨[], [], []⟩

/-- Source `RummiKub::Add`. -/
def Add (s : RummiKub) (tile : Tile) : RummiKub :=
  { s with _hand := s._hand ++ [tile] }

/-- Source `RummiKub::GetGroups`. -/
def GetGroups (s : RummiKub) : List (List Tile) := s._groups

/-- Source `RummiKub::GetRuns`. -/
def GetRuns (s : RummiKub) : List (List Tile) := s._runs

/-- A freshly constructed solver into which the tiles of `hand` were added in order. -/
def load (hand : List Tile) : RummiKub := hand.foldl Add RummiKub.new

/-! ## `GetOptions` -/

/-- Inner loop of the run pass of `GetOptions`: `isRunValid` after the loop. -/
def isRunValid (current : Tile) : List Tile → Bool
  | [] => true
  | t :: ts =>
    if current.denomination == t.denomination || current.color != t.color then false
    else isRunValid current ts

/-- Inner loop of the group pass of `GetOptions`: `isGroupValid` after the loop. -/
def isGroupValid (current : Tile) : List Tile → Bool
  | [] => true
  | t :: ts =>
    if current.color == t.color || current.denomination != t.denomination then false
    else isGroupValid current ts

/-- The loop over `_runs` of `GetOptions`, with the running `index` and the
vector `a` built so far. -/
def runOptions (current : Tile) : List (List Tile) → Int → List Action → List Action
  | [], _, a => a
  | r :: rs, index, a =>
    runOptions current rs (index + 1)
      (if isRunValid current r then a ++ [⟨current, index, Mode.EX_RUN⟩] else a)

/-- The loop over `_groups` of `GetOptions`. -/
def groupOptions (current : Tile) : List (List Tile) → Int → List Action → List Action
  | [], _, a => a
  | g :: gs, index, a =>
    groupOptions current gs (index + 1)
      (if isGroupValid current g then a ++ [⟨current, index, Mode.EX_GROUP⟩] else a)

/-- Source `RummiKub::GetOptions`. -/
def GetOptions (s : RummiKub) (current : Tile) : List Action :=
  let a := runOptions current s._runs 0 []
  let a := groupOptions current s._groups 0 a
  let a := a ++ [⟨current, -1, Mode.ADD_RUN⟩]
  a ++ [⟨current, -1, Mode.ADD_GROUP⟩]

/-! ## `isLegal` -/

/-- The `find_if` over `_hand` of `isLegal`: `it != _hand.end()`. -/
def inHand (hand : List Tile) (t : Tile) : Bool :=
  hand.any fun t1 => t.color == t1.color && t.denomination == t1.denomination

/-- The loop over the tiles of one group `g`; `false` is `return false`. -/
def checkGroup (hand : List Tile) (g : List Tile) : List Tile → Bool
  | [] => true
  | t :: ts =>
    if g.length < 3 || g.length > 4 then false
    else if !inHand hand t then false
    else checkGroup hand g ts

/-- The loop over `_groups`; `false` is `return false`. -/
def checkGroups (hand : List Tile) : List (List Tile) → Bool
  | [] => true
  | g :: gs => if checkGroup hand g g then checkGroups hand gs else false

/-- The membership loop over the tiles of one run; `false` is `return false`. -/
def checkRunHand (hand : List Tile) : List Tile → Bool
  | [] => true
  | t :: ts => if !inHand hand t then false else checkRunHand hand ts

/-- The counting loop `for i < r.size()`: `none` is `return false`; the slot
`counts[r[i].denomination]` exists only for denominations `0..12`. -/
def countRun (color : Color) : List Tile → List Nat → Except Fault (Option (List Nat))
  | [], counts => .ok (some counts)
  | t :: ts, counts =>
    if t.color != color then .ok none
    else if 0 ≤ t.denomination ∧ t.denomination < 13 then
      countRun color ts
        (counts.set t.denomination.toNat (counts.getD t.denomination.toNat 0 + 1))
    else .error Fault.outOfBounds

/-- The loop `for (int b : counts)` with its variable `len`: `none` is
`return false`, `some len` is the value of `len` after the loop. -/
def scanBlocks : List Nat → Nat → Option Nat
  | [], len => some len
  | b :: bs, len =>
    if b ≠ 0 then
      if len > 0 then scanBlocks bs (len + 1) else scanBlocks bs 1
    else
      if len > 0 then
        if len < 3 then none else scanBlocks bs 0
      else scanBlocks bs len

/-- The body of the loop over `_runs` for one run `r`. -/
def checkRun (hand : List Tile) (correct : Bool) (r : List Tile) : Except Fault Bool :=
  if r.length < 3 then .ok false
  else if !checkRunHand hand r then .ok false
  else
    match r with
    | [] => .error Fault.outOfBounds
    | t0 :: _ =>
      match countRun t0.color r (List.replicate 13 0) with
      | .error e => .error e
      | .ok none => .ok false
      | .ok (some counts) =>
        if counts.any (fun c => decide (c > 1)) then .ok false
        else if correct then
          match scanBlocks counts 0 with
          | none => .ok false
          | some len =>
            if counts.getD 12 0 ≠ 0 ∧ len < 3 then .ok false else .ok true
        else .ok true

/-- The loop over `_runs`. -/
def checkRuns (hand : List Tile) (correct : Bool) : List (List Tile) → Except Fault Bool
  | [] => .ok true
  | r :: rs =>
    match checkRun hand correct r with
    | .error e => .error e
    | .ok false => .ok false
    | .ok true => checkRuns hand correct rs

/-- Source `RummiKub::isLegal`. -/
def isLegal (s : RummiKub) : Except Fault Bool :=
  let correct := true
  if !checkGroups s._hand s._groups then .ok false
  else checkRuns s._hand correct s._runs

/-! ## `SolveRec` and `Solve` -/

/-- Source `v[index].push_back(tile)` on a vector of vectors. -/
def pushAt (v : List (List Tile)) (index : Int) (tile : Tile) :
    Except Fault (List (List Tile)) :=
  if 0 ≤ index then
    match v[index.toNat]? with
    | some r => .ok (v.set index.toNat (r ++ [tile]))
    | none => .error Fault.outOfBounds
  else .error Fault.outOfBounds

/-- Source `v[index].pop_back()` on a vector of vectors. -/
def popAt (v : List (List Tile)) (index : Int) : Except Fault (List (List Tile)) :=
  if 0 ≤ index then
    match v[index.toNat]? with
    | some r => if r.isEmpty then .error Fault.outOfBounds else .ok (v.set index.toNat r.dropLast)
    | none => .error Fault.outOfBounds
  else .error Fault.outOfBounds

/-- Source `v.pop_back()` on a vector of vectors. -/
def popBack (v : List (List Tile)) : Except Fault (List (List Tile)) :=
  if v.isEmpty then .error Fault.outOfBounds else .ok v.dropLast

/-- The first `switch` of the loop body of `SolveRec`: execute the action. -/
def applyAction (s : RummiKub) (action : Action) : Except Fault RummiKub :=
  match action._mode with
  | Mode.ADD_RUN => .ok { s with _runs := s._runs ++ [[action._tile]] }
  | Mode.ADD_GROUP => .ok { s with _groups := s._groups ++ [[action._tile]] }
  | Mode.EX_RUN =>
    match pushAt s._runs action.index action._tile with
    | .ok v => .ok { s with _runs := v }
    | .error e => .error e
  | Mode.EX_GROUP =>
    match pushAt s._groups action.index action._tile with
    | .ok v => .ok { s with _groups := v }
    | .error e => .error e

/-- The second `switch` of the loop body of `SolveRec`: undo the action. -/
def undoAction (s : RummiKub) (action : Action) : Except Fault RummiKub :=
  match action._mode with
  | Mode.ADD_RUN =>
    match popBack s._runs with
    | .ok v => .ok { s with _runs := v }
    | .error e => .error e
  | Mode.ADD_GROUP =>
    match popBack s._groups with
    | .ok v => .ok { s with _groups := v }
    | .error e => .error e
  | Mode.EX_RUN =>
    match popAt s._runs action.index with
    | .ok v => .ok { s with _runs := v }
    | .error e => .error e
  | Mode.EX_GROUP =>
    match popAt s._groups action.index with
    | .ok v => .ok { s with _groups := v }
    | .error e => .error e

/-- Result of a call of `SolveRec`: the returned `bool`, the solver afterwards
and the working hand afterwards. -/
abbrev Result := Except Fault (Bool × RummiKub × List Tile)

/-- The loop `for (Action &action : actions)` of `SolveRec` followed by
`hand.push_back(tile); return false;`.  `rec` is the recursive call. -/
def tryActions (rec : RummiKub → List Tile → Result) (tile : Tile) (aSize : Nat) :
    List Action → RummiKub → List Tile → Result
  | [], s, hand => .ok (false, s, hand ++ [tile])
  | action :: rest, s, hand =>
    match (if aSize ≠ 0 then applyAction s action else .ok s) with
    | .error e => .error e
    | .ok s1 =>
      match rec s1 hand with
      | .error e => .error e
      | .ok (true, s2, hand2) => .ok (true, s2, hand2)
      | .ok (false, s2, hand2) =>
        match undoAction s2 action with
        | .error e => .error e
        | .ok s3 => tryActions rec tile aSize rest s3 hand2

/-- Source `RummiKub::SolveRec`, with recursion fuel. -/
def SolveRec : Nat → RummiKub → List Tile → Result
  | 0, _, _ => .error Fault.outOfFuel
  | fuel + 1, s, hand =>
    match hand.getLast? with
    | none =>
      match isLegal s with
      | .error e => .error e
      | .ok b => .ok (b, s, hand)
    | some tile =>
      let actions := GetOptions s tile
      let hand1 := hand.dropLast
      let aSize := actions.length
      tryActions (fun s1 h1 => SolveRec fuel s1 h1) tile aSize actions s hand1

/-- A model of `std::sort(a.begin(), a.end(), TileComparator)`: the result is a
permutation of the input in which no tile compares less than an earlier one. -/
structure SortImpl where
  sort : List Tile → List Tile
  perm : ∀ l, (sort l).Perm l
  sorted : ∀ l, (sort l).Pairwise fun a b => TileComp b a = false

/-- Insertion of one tile into a sorted vector, after the tiles that compare
less than it. -/
def insertTile (t : Tile) : List Tile → List Tile
  | [] => [t]
  | u :: us => if TileComp u t then u :: insertTile t us else t :: u :: us

/-- Stable insertion sort by `TileComp`. -/
def insertionSortTiles : List Tile → List Tile
  | [] => []
  | t :: ts => insertTile t (insertionSortTiles ts)

/-- Source `RummiKub::Solve`.  The C++ function returns nothing; the embedding returns
the `bool` of its call of `SolveRec` together with the solver afterwards. -/
def Solve (impl : SortImpl) (s : RummiKub) : Except Fault (Bool × RummiKub) :=
  let a := impl.sort s._hand
  match SolveRec (a.length + 1) s a with
  | .error e => .error e
  | .ok (b, s1, _) => .ok (b, s1)

/-- The executable sorting routine: stable insertion sort by denomination. -/
def stableSort : SortImpl where
  sort := insertionSortTiles
  perm := fun l => by
    have h : ∀ (t : Tile) (us : List Tile), (insertTile t us).Perm (t :: us) := by
      intro t us
      induction us with
      | nil => exact List.Perm.refl _
      | cons u us ih =>
        unfold insertTile
        split
        · exact (List.Perm.cons u ih).trans (List.Perm.swap t u us)
        · exact List.Perm.refl _
    induction l with
    | nil => exact List.Perm.refl _
    | cons t ts ih => exact (h t _).trans (List.Perm.cons t ih)
  sorted := fun l => by
    have hperm : ∀ (t : Tile) (us : List Tile), (insertTile t us).Perm (t :: us) := by
      intro t us
      induction us with
      | nil => exact List.Perm.refl _
      | cons u us ih =>
        unfold insertTile
        split
        · exact (List.Perm.cons u ih).trans (List.Perm.swap t u us)
        · exact List.Perm.refl _
    have h : ∀ (t : Tile) (us : List Tile),
        (us.Pairwise fun a b => TileComp b a = false) →
        (insertTile t us).Pairwise fun a b => TileComp b a = false := by
      intro t us
      induction us with
      | nil => intro _; simp [insertTile]
      | cons u us ih =>
        intro hp
        have hp1 := List.pairwise_cons.mp hp
        unfold insertTile
        split
        · rename_i hlt
          refine List.pairwise_cons.mpr ⟨?_, ih hp1.2⟩
          intro b hb
          rcases List.mem_cons.mp ((hperm t us).mem_iff.mp hb) with rfl | hb1
          · simp only [TileComp, decide_eq_true_eq, decide_eq_false_iff_not, not_lt] at *
            omega
          · exact hp1.1 b hb1
        · rename_i hlt
          refine List.pairwise_cons.mpr ⟨?_, hp⟩
          intro b hb
          rcases List.mem_cons.mp hb with rfl | hb1
          · simpa using hlt
          · have := hp1.1 b hb1
            simp only [TileComp, decide_eq_true_eq, decide_eq_false_iff_not, not_lt] at *
            omega
    induction l with
    | nil => exact List.Pairwise.nil
    | cons t ts ih => exact h t _ ih

/-! ## Declarative description of the search space -/

/-- One placement of the tile `t`: the four kinds of action that `GetOptions`
offers, described by their effect on the solver. -/
inductive Place (t : Tile) : RummiKub → RummiKub → Prop where
  | addRun (s : RummiKub) : Place t s { s with _runs := s._runs ++ [[t]] }
  | addGroup (s : RummiKub) : Place t s { s with _groups := s._groups ++ [[t]] }
  | exRun (s : RummiKub) (k : Nat) (r : List Tile) :
      s._runs[k]? = some r → isRunValid t r = true →
      Place t s { s with _runs := s._runs.set k (r ++ [t]) }
  | exGroup (s : RummiKub) (k : Nat) (g : List Tile) :
      s._groups[k]? = some g → isGroupValid t g = true →
      Place t s { s with _groups := s._groups.set k (g ++ [t]) }

/-- Relation `Reach s hand s1`: `s1` is a leaf of the search started at `s` with the
working hand `hand`, whose tiles are placed last tile first. -/
inductive Reach : RummiKub → List Tile → RummiKub → Prop where
  | leaf (s : RummiKub) : Reach s [] s
  | step (s s1 s2 : RummiKub) (hand : List Tile) (t : Tile) :
      Place t s s1 → Reach s1 hand s2 → Reach s (hand ++ [t]) s2

/-- All tiles held in runs and groups. -/
def placedTiles (s : RummiKub) : List Tile := s._runs.flatten ++ s._groups.flatten

/-! ## The validator without the membership checks

The variant of `isLegal` in which the two `find_if` membership checks are
removed and everything else is kept, and the search that consults it. -/

/-- Variant of `checkGroup` without the membership check. -/
def checkGroupNoHand (g : List Tile) : List Tile → Bool
  | [] => true
  | _ :: ts =>
    if g.length < 3 || g.length > 4 then false
    else checkGroupNoHand g ts

/-- Variant of `checkGroups` without the membership check. -/
def checkGroupsNoHand : List (List Tile) → Bool
  | [] => true
  | g :: gs => if checkGroupNoHand g g then checkGroupsNoHand gs else false

/-- Variant of `checkRun` without the membership loop. -/
def checkRunNoHand (correct : Bool) (r : List Tile) : Except Fault Bool :=
  if r.length < 3 then .ok false
  else
    match r with
    | [] => .error Fault.outOfBounds
    | t0 :: _ =>
      match countRun t0.color r (List.replicate 13 0) with
      | .error e => .error e
      | .ok none => .ok false
      | .ok (some counts) =>
        if counts.any (fun c => decide (c > 1)) then .ok false
        else if correct then
          match scanBlocks counts 0 with
          | none => .ok false
          | some len =>
            if counts.getD 12 0 ≠ 0 ∧ len < 3 then .ok false else .ok true
        else .ok true

/-- Variant of `checkRuns` without the membership loop. -/
def checkRunsNoHand (correct : Bool) : List (List Tile) → Except Fault Bool
  | [] => .ok true
  | r :: rs =>
    match checkRunNoHand correct r with
    | .error e => .error e
    | .ok false => .ok false
    | .ok true => checkRunsNoHand correct rs

/-- Variant of `isLegal` with the two membership checks removed. -/
def isLegalNoHand (s : RummiKub) : Except Fault Bool :=
  let correct := true
  if !checkGroupsNoHand s._groups then .ok false
  else checkRunsNoHand correct s._runs

/-- Variant of `SolveRec` that consults `isLegalNoHand` at the leaves. -/
def SolveRecNoHand : Nat → RummiKub → List Tile → Result
  | 0, _, _ => .error Fault.outOfFuel
  | fuel + 1, s, hand =>
    match hand.getLast? with
    | none =>
      match isLegalNoHand s with
      | .error e => .error e
      | .ok b => .ok (b, s, hand)
    | some tile =>
      let actions := GetOptions s tile
      let hand1 := hand.dropLast
      let aSize := actions.length
      tryActions (fun s1 h1 => SolveRecNoHand fuel s1 h1) tile aSize actions s hand1

/-- Variant of `Solve` that runs `SolveRecNoHand`. -/
def SolveNoHand (impl : SortImpl) (s : RummiKub) : Except Fault (Bool × RummiKub) :=
  let a := impl.sort s._hand
  match SolveRecNoHand (a.length + 1) s a with
  | .error e => .error e
  | .ok (b, s1, _) => .ok (b, s1)

/-! ## The invariants of the specification -/

/-- The denominations of the tiles of a run, in the order of the run. -/
def denominations (r : List Tile) : List Int := r.map fun t => t.denomination

/-- The colors of the tiles of a group, in the order of the group. -/
def colors (g : List Tile) : List Color := g.map fun t => t.color

/-- Run invariant: length at least 3, one color, no denomination twice, and
every maximal contiguous block of denominations `lo..hi` has length at least 3. -/
def RunInvariant (r : List Tile) : Prop :=
  3 ≤ r.length ∧
  (∀ t ∈ r, ∀ u ∈ r, t.color = u.color) ∧
  (denominations r).Nodup ∧
  ∀ lo hi : Int, lo ≤ hi →
    (∀ d, lo ≤ d → d ≤ hi → d ∈ denominations r) →
    lo - 1 ∉ denominations r → hi + 1 ∉ denominations r → lo + 2 ≤ hi

/-- Group invariant: size 3 or 4, one denomination, no two tiles of one color. -/
def GroupInvariant (g : List Tile) : Prop :=
  (g.length = 3 ∨ g.length = 4) ∧
  (∀ t ∈ g, ∀ u ∈ g, t.denomination = u.denomination) ∧
  (colors g).Nodup

/-- What the search maintains for every group it builds: it is not empty, has
one denomination and no two tiles of one color. -/
def GroupBuilt (g : List Tile) : Prop :=
  g ≠ [] ∧ (∀ t ∈ g, ∀ u ∈ g, t.denomination = u.denomination) ∧ (colors g).Nodup

/-- A legal full partition of `hand` into `runs` and `groups`: every tile of
the hand is used exactly once, every run satisfies the run invariant and every
group the group invariant. -/
def LegalPartition (hand : List Tile) (runs groups : List (List Tile)) : Prop :=
  (runs.flatten ++ groups.flatten).Perm hand ∧
  (∀ r ∈ runs, RunInvariant r) ∧ (∀ g ∈ groups, GroupInvariant g)

/-! ## Basic facts about the embedding -/

theorem foldl_Add (hand : List Tile) (s : RummiKub) :
    hand.foldl Add s = { s with _hand := s._hand ++ hand } := by
  induction hand generalizing s with
  | nil => simp
  | cons t ts ih => simp [List.foldl, ih, Add]

theorem load_eq (hand : List Tile) : load hand = ⟨hand, [], []⟩ := by
  simp [load, foldl_Add, RummiKub.new]

theorem isRunValid_iff (t : Tile) (r : List Tile) :
    isRunValid t r = true ↔ ∀ u ∈ r, t.denomination ≠ u.denomination ∧ t.color = u.color := by
  induction r with
  | nil => simp [isRunValid]
  | cons u us ih =>
    simp only [isRunValid, List.mem_cons, forall_eq_or_imp]
    by_cases h1 : t.denomination = u.denomination <;> by_cases h2 : t.color = u.color <;>
      simp [h1, h2, ih]

theorem isGroupValid_iff (t : Tile) (g : List Tile) :
    isGroupValid t g = true ↔ ∀ u ∈ g, t.color ≠ u.color ∧ t.denomination = u.denomination := by
  induction g with
  | nil => simp [isGroupValid]
  | cons u us ih =>
    simp only [isGroupValid, List.mem_cons, forall_eq_or_imp]
    by_cases h1 : t.denomination = u.denomination <;> by_cases h2 : t.color = u.color <;>
      simp [h1, h2, ih]

theorem mem_runOptions (t : Tile) (rs : List (List Tile)) (i : Int) (a : List Action)
    (x : Action) :
    x ∈ runOptions t rs i a ↔
      x ∈ a ∨ ∃ (k : Nat) (r : List Tile), rs[k]? = some r ∧ isRunValid t r = true ∧
        x = ⟨t, i + k, Mode.EX_RUN⟩ := by
  induction rs generalizing i a with
  | nil => simp [runOptions]
  | cons r rs ih =>
    simp only [runOptions, ih]
    constructor
    · rintro (h | ⟨k, r1, h1, h2, h3⟩)
      · by_cases hv : isRunValid t r = true
        · simp only [hv, if_true, List.mem_append, List.mem_singleton] at h
          rcases h with h | h
          · exact Or.inl h
          · exact Or.inr ⟨0, r, by simp, hv, by simpa using h⟩
        · simp only [hv] at h
          exact Or.inl h
      · refine Or.inr ⟨k + 1, r1, by simpa using h1, h2, ?_⟩
        rw [h3]
        have : i + 1 + (k : Int) = i + ((k + 1 : Nat) : Int) := by push_cast; ring
        rw [this]
    · rintro (h | ⟨k, r1, h1, h2, h3⟩)
      · left
        split
        · exact List.mem_append_left _ h
        · exact h
      · cases k with
        | zero =>
          simp only [List.getElem?_cons_zero, Option.some.injEq] at h1
          subst h1
          left
          simp [h2, h3]
        | succ k =>
          refine Or.inr ⟨k, r1, by simpa using h1, h2, ?_⟩
          rw [h3]
          have : i + 1 + (k : Int) = i + ((k + 1 : Nat) : Int) := by push_cast; ring
          rw [this]

theorem mem_groupOptions (t : Tile) (gs : List (List Tile)) (i : Int) (a : List Action)
    (x : Action) :
    x ∈ groupOptions t gs i a ↔
      x ∈ a ∨ ∃ (k : Nat) (g : List Tile), gs[k]? = some g ∧ isGroupValid t g = true ∧
        x = ⟨t, i + k, Mode.EX_GROUP⟩ := by
  induction gs generalizing i a with
  | nil => simp [groupOptions]
  | cons g gs ih =>
    simp only [groupOptions, ih]
    constructor
    · rintro (h | ⟨k, g1, h1, h2, h3⟩)
      · by_cases hv : isGroupValid t g = true
        · simp only [hv, if_true, List.mem_append, List.mem_singleton] at h
          rcases h with h | h
          · exact Or.inl h
          · exact Or.inr ⟨0, g, by simp, hv, by simpa using h⟩
        · simp only [hv] at h
          exact Or.inl h
      · refine Or.inr ⟨k + 1, g1, by simpa using h1, h2, ?_⟩
        rw [h3]
        have : i + 1 + (k : Int) = i + ((k + 1 : Nat) : Int) := by push_cast; ring
        rw [this]
    · rintro (h | ⟨k, g1, h1, h2, h3⟩)
      · left
        split
        · exact List.mem_append_left _ h
        · exact h
      · cases k with
        | zero =>
          simp only [List.getElem?_cons_zero, Option.some.injEq] at h1
          subst h1
          left
          simp [h2, h3]
        | succ k =>
          refine Or.inr ⟨k, g1, by simpa using h1, h2, ?_⟩
          rw [h3]
          have : i + 1 + (k : Int) = i + ((k + 1 : Nat) : Int) := by push_cast; ring
          rw [this]

/-- The actions offered by `GetOptions`, by kind. -/
theorem mem_GetOptions (s : RummiKub) (t : Tile) (x : Action) :
    x ∈ GetOptions s t ↔
      (∃ (k : Nat) (r : List Tile), s._runs[k]? = some r ∧ isRunValid t r = true ∧
          x = ⟨t, k, Mode.EX_RUN⟩) ∨
      (∃ (k : Nat) (g : List Tile), s._groups[k]? = some g ∧ isGroupValid t g = true ∧
          x = ⟨t, k, Mode.EX_GROUP⟩) ∨
      x = ⟨t, -1, Mode.ADD_RUN⟩ ∨ x = ⟨t, -1, Mode.ADD_GROUP⟩ := by
  simp only [GetOptions, List.mem_append, List.mem_singleton, mem_groupOptions, mem_runOptions,
    List.not_mem_nil, false_or, zero_add]
  constructor
  · rintro (((h | h) | h) | h)
    · exact Or.inl h
    · exact Or.inr (Or.inl h)
    · exact Or.inr (Or.inr (Or.inl h))
    · exact Or.inr (Or.inr (Or.inr h))
  · rintro (h | h | h | h)
    · exact Or.inl (Or.inl (Or.inl h))
    · exact Or.inl (Or.inl (Or.inr h))
    · exact Or.inl (Or.inr h)
    · exact Or.inr h

theorem GetOptions_length_pos (s : RummiKub) (t : Tile) : (GetOptions s t).length ≠ 0 := by
  simp [GetOptions]

/-! ## Actions: executing and undoing -/

theorem pushAt_ok (v : List (List Tile)) (k : Nat) (r : List Tile) (t : Tile)
    (h : v[k]? = some r) : pushAt v (k : Int) t = .ok (v.set k (r ++ [t])) := by
  simp [pushAt, h]

theorem set_same {α : Type} (v : List α) (k : Nat) (r : α) (h : v[k]? = some r) :
    v.set k r = v := by
  induction v generalizing k with
  | nil => simp
  | cons x xs ih =>
    cases k with
    | zero =>
      simp only [List.getElem?_cons_zero, Option.some.injEq] at h
      simp [h]
    | succ k =>
      simp only [List.getElem?_cons_succ] at h
      simp [ih k h]

theorem popAt_pushed (v : List (List Tile)) (k : Nat) (r : List Tile) (t : Tile)
    (h : v[k]? = some r) : popAt (v.set k (r ++ [t])) (k : Int) = .ok v := by
  have hk : k < v.length := (List.getElem?_eq_some.mp h).1
  have h1 : (v.set k (r ++ [t]))[k]? = some (r ++ [t]) := by
    simp [List.getElem?_set, hk]
  have h2 : v.set k r = v := set_same v k r h
  simp [popAt, h1, h2]

theorem popBack_pushed (v : List (List Tile)) (x : List Tile) :
    popBack (v ++ [x]) = .ok v := by
  simp [popBack]

/-- Every action offered by `GetOptions` can be executed, is one of the four
placements, and is undone exactly by the second `switch`. -/
theorem GetOptions_step (s : RummiKub) (t : Tile) (x : Action) (hx : x ∈ GetOptions s t) :
    ∃ s1, applyAction s x = .ok s1 ∧ undoAction s1 x = .ok s ∧ Place t s s1 := by
  rcases (mem_GetOptions s t x).mp hx with ⟨k, r, h1, h2, rfl⟩ | ⟨k, g, h1, h2, rfl⟩ | rfl | rfl
  · refine ⟨{ s with _runs := s._runs.set k (r ++ [t]) }, ?_, ?_, Place.exRun s k r h1 h2⟩
    · simp [applyAction, pushAt_ok _ _ _ _ h1]
    · simp [undoAction, popAt_pushed _ _ _ _ h1]
  · refine ⟨{ s with _groups := s._groups.set k (g ++ [t]) }, ?_, ?_, Place.exGroup s k g h1 h2⟩
    · simp [applyAction, pushAt_ok _ _ _ _ h1]
    · simp [undoAction, popAt_pushed _ _ _ _ h1]
  · refine ⟨{ s with _runs := s._runs ++ [[t]] }, ?_, ?_, Place.addRun s⟩
    · simp [applyAction]
    · simp [undoAction, popBack_pushed]
  · refine ⟨{ s with _groups := s._groups ++ [[t]] }, ?_, ?_, Place.addGroup s⟩
    · simp [applyAction]
    · simp [undoAction, popBack_pushed]

/-! ## `isLegal` does not consume fuel -/

theorem countRun_fuel (color : Color) (ts : List Tile) (counts : List Nat) :
    countRun color ts counts ≠ .error Fault.outOfFuel := by
  induction ts generalizing counts with
  | nil => simp [countRun]
  | cons t ts ih =>
    simp only [countRun]
    split
    · simp
    · split
      · exact ih _
      · simp

theorem checkRun_fuel (hand : List Tile) (correct : Bool) (r : List Tile) :
    checkRun hand correct r ≠ .error Fault.outOfFuel := by
  unfold checkRun
  split
  · simp
  · split
    · simp
    · split
      · simp
      · rename_i t0 ts
        split
        · rename_i e he
          intro h
          simp only [Except.error.injEq] at h
          subst h
          exact countRun_fuel _ _ _ he
        · simp
        · split
          · simp
          · split
            · split
              · simp
              · split <;> simp
            · simp

theorem checkRuns_fuel (hand : List Tile) (correct : Bool) (rs : List (List Tile)) :
    checkRuns hand correct rs ≠ .error Fault.outOfFuel := by
  induction rs with
  | nil => simp [checkRuns]
  | cons r rs ih =>
    simp only [checkRuns]
    split
    · rename_i e he
      intro h
      simp only [Except.error.injEq] at h
      subst h
      exact checkRun_fuel _ _ _ he
    · simp
    · exact ih

theorem isLegal_fuel (s : RummiKub) : isLegal s ≠ .error Fault.outOfFuel := by
  simp only [isLegal]
  split
  · simp
  · exact checkRuns_fuel _ _ _

/-! ## The backtracking loop -/

/-- The loop over the actions, for a recursive call that restores solver and
hand whenever it returns `false`: the loop restores them as well when it
returns `false`, and when it returns `true` the result is that of the recursive
call after one placement. -/
theorem tryActions_spec (rec : RummiKub → List Tile → Result) (tile : Tile) (aSize : Nat)
    (haSize : aSize ≠ 0) (s : RummiKub) (hand : List Tile)
    (hrec : ∀ s1 s2 hand2, rec s1 hand = .ok (false, s2, hand2) → s2 = s1 ∧ hand2 = hand)
    (as : List Action)
    (has : ∀ x ∈ as, ∃ s1, applyAction s x = .ok s1 ∧ undoAction s1 x = .ok s ∧ Place tile s s1)
    (b : Bool) (s' : RummiKub) (hand' : List Tile)
    (h : tryActions rec tile aSize as s hand = .ok (b, s', hand')) :
    (b = false → s' = s ∧ hand' = hand ++ [tile]) ∧
    (b = true → ∃ s1, Place tile s s1 ∧ rec s1 hand = .ok (true, s', hand')) := by
  induction as with
  | nil =>
    simp only [tryActions, Except.ok.injEq, Prod.mk.injEq] at h
    obtain ⟨rfl, rfl, rfl⟩ := h
    simp
  | cons x rest ih =>
    obtain ⟨s1, ha, hu, hp⟩ := has x (List.mem_cons_self _ _)
    simp only [tryActions, haSize, ne_eq, not_false_eq_true, if_true, ha] at h
    cases hr : rec s1 hand with
    | error e => simp [hr] at h
    | ok res =>
      obtain ⟨b1, s2, hand2⟩ := res
      cases b1 with
      | true =>
        simp only [hr, Except.ok.injEq, Prod.mk.injEq] at h
        obtain ⟨rfl, rfl, rfl⟩ := h
        exact ⟨by simp, fun _ => ⟨s1, hp, hr⟩⟩
      | false =>
        obtain ⟨rfl, rfl⟩ := hrec s1 s2 hand2 hr
        simp only [hr, hu] at h
        exact ih (fun y hy => has y (List.mem_cons_of_mem _ hy)) h

/-- The loop over the actions does not run out of fuel when the recursive call
does not. -/
theorem tryActions_fuel (rec : RummiKub → List Tile → Result) (tile : Tile) (aSize : Nat)
    (haSize : aSize ≠ 0) (s : RummiKub) (hand : List Tile)
    (hrec : ∀ s1 s2 hand2, rec s1 hand = .ok (false, s2, hand2) → s2 = s1 ∧ hand2 = hand)
    (hfuel : ∀ s1, rec s1 hand ≠ .error Fault.outOfFuel)
    (as : List Action)
    (has : ∀ x ∈ as, ∃ s1, applyAction s x = .ok s1 ∧ undoAction s1 x = .ok s ∧ Place tile s s1) :
    tryActions rec tile aSize as s hand ≠ .error Fault.outOfFuel := by
  induction as with
  | nil => simp [tryActions]
  | cons x rest ih =>
    obtain ⟨s1, ha, hu, hp⟩ := has x (List.mem_cons_self _ _)
    simp only [tryActions, haSize, ne_eq, not_false_eq_true, if_true, ha]
    cases hr : rec s1 hand with
    | error e =>
      have := hfuel s1
      rw [hr] at this
      simpa using this
    | ok res =>
      obtain ⟨b1, s2, hand2⟩ := res
      cases b1 with
      | true => simp
      | false =>
        obtain ⟨rfl, rfl⟩ := hrec s1 s2 hand2 hr
        simp only [hu]
        exact ih (fun y hy => has y (List.mem_cons_of_mem _ hy))

/-- Backtracking contract: `SolveRec` returning `false` leaves solver and working hand as they were;
`SolveRec` returning `true` stops at a leaf of the search space that `isLegal`
accepts, with the working hand used up. -/
theorem SolveRec_spec (fuel : Nat) (s : RummiKub) (hand : List Tile) (b : Bool)
    (s' : RummiKub) (hand' : List Tile) (h : SolveRec fuel s hand = .ok (b, s', hand')) :
    (b = false → s' = s ∧ hand' = hand) ∧
    (b = true → Reach s hand s' ∧ isLegal s' = .ok true ∧ hand' = []) := by
  induction fuel generalizing s hand b s' hand' with
  | zero => simp [SolveRec] at h
  | succ fuel ih =>
    rcases List.eq_nil_or_concat hand with rfl | ⟨init, t, rfl⟩
    all_goals try rw [List.concat_eq_append] at *
    · simp only [SolveRec, List.getLast?_nil] at h
      cases hl : isLegal s with
      | error e => simp [hl] at h
      | ok b1 =>
        simp only [hl, Except.ok.injEq, Prod.mk.injEq] at h
        obtain ⟨rfl, rfl, rfl⟩ := h
        refine ⟨by simp, fun hb => ⟨Reach.leaf _, ?_, rfl⟩⟩
        rw [hl, hb]
    · simp only [SolveRec, List.getLast?_concat, List.dropLast_concat] at h
      have hspec := tryActions_spec (fun s1 h1 => SolveRec fuel s1 h1) t
        (GetOptions s t).length (GetOptions_length_pos s t) s init
        (fun s1 s2 hand2 hr => (ih s1 init false s2 hand2 hr).1 rfl)
        (GetOptions s t) (fun x hx => GetOptions_step s t x hx) b s' hand' h
      refine ⟨hspec.1, fun hb => ?_⟩
      obtain ⟨s1, hp, hr⟩ := hspec.2 hb
      obtain ⟨hreach, hleg, hnil⟩ := (ih s1 init true s' hand' hr).2 rfl
      exact ⟨Reach.step s s1 s' init t hp hreach, hleg, hnil⟩

/-- The fuel `hand.size() + 1` is enough. -/
theorem SolveRec_fuel (fuel : Nat) (s : RummiKub) (hand : List Tile) (h : hand.length < fuel) :
    SolveRec fuel s hand ≠ .error Fault.outOfFuel := by
  induction fuel generalizing s hand with
  | zero => omega
  | succ fuel ih =>
    rcases List.eq_nil_or_concat hand with rfl | ⟨init, t, rfl⟩
    all_goals try rw [List.concat_eq_append] at *
    · simp only [SolveRec, List.getLast?_nil]
      cases hl : isLegal s with
      | error e =>
        cases e with
        | outOfBounds => simp
        | outOfFuel => exact absurd hl (isLegal_fuel s)
      | ok b1 => simp
    · simp only [SolveRec, List.getLast?_concat, List.dropLast_concat]
      have hlen : init.length < fuel := by
        simp only [List.length_append, List.length_singleton] at h
        omega
      exact tryActions_fuel (fun s1 h1 => SolveRec fuel s1 h1) t
        (GetOptions s t).length (GetOptions_length_pos s t) s init
        (fun s1 s2 hand2 hr => (SolveRec_spec fuel s1 init false s2 hand2 hr).1 rfl)
        (fun s1 => ih s1 init hlen)
        (GetOptions s t) (fun x hx => GetOptions_step s t x hx)

/-! ## Invariants along the search -/

theorem mem_of_getElem?_eq {α : Type} {v : List α} {k : Nat} {x : α} (h : v[k]? = some x) :
    x ∈ v := by
  obtain ⟨hk, hx⟩ := List.getElem?_eq_some.mp h
  rw [← hx]
  exact List.getElem_mem hk

theorem Place_hand (t : Tile) (s s1 : RummiKub) (h : Place t s s1) : s1._hand = s._hand := by
  cases h <;> rfl

theorem flatten_set_perm (v : List (List Tile)) (k : Nat) (r : List Tile) (t : Tile)
    (h : v[k]? = some r) : (v.set k (r ++ [t])).flatten.Perm (t :: v.flatten) := by
  induction v generalizing k with
  | nil => simp at h
  | cons x xs ih =>
    cases k with
    | zero =>
      simp only [List.getElem?_cons_zero, Option.some.injEq] at h
      subst h
      simp only [List.set_cons_zero, List.flatten_cons, List.append_assoc, List.singleton_append]
      exact List.perm_middle
    | succ k =>
      simp only [List.getElem?_cons_succ] at h
      simp only [List.set_cons_succ, List.flatten_cons]
      exact (List.Perm.append_left x (ih k h)).trans List.perm_middle

theorem Place_tiles (t : Tile) (s s1 : RummiKub) (h : Place t s s1) :
    (placedTiles s1).Perm (t :: placedTiles s) := by
  cases h with
  | addRun =>
    simp only [placedTiles, List.flatten_append, List.flatten_cons, List.flatten_nil,
      List.append_nil, List.append_assoc, List.singleton_append]
    exact List.perm_middle
  | addGroup =>
    simp only [placedTiles, List.flatten_append, List.flatten_cons, List.flatten_nil,
      List.append_nil]
    rw [← List.append_assoc]
    exact List.perm_append_singleton _ _
  | exRun k r h1 h2 =>
    simp only [placedTiles]
    exact List.Perm.append_right _ (flatten_set_perm _ k r t h1)
  | exGroup k g h1 h2 =>
    simp only [placedTiles]
    exact (List.Perm.append_left _ (flatten_set_perm _ k g t h1)).trans List.perm_middle

theorem Place_groups (t : Tile) (s s1 : RummiKub) (h : Place t s s1)
    (hs : ∀ g ∈ s._groups, GroupBuilt g) : ∀ g ∈ s1._groups, GroupBuilt g := by
  cases h with
  | addRun => exact hs
  | addGroup =>
    intro g hg
    rcases List.mem_append.mp hg with hg | hg
    · exact hs g hg
    · simp only [List.mem_singleton] at hg
      subst hg
      simp [GroupBuilt, colors]
  | exRun k r h1 h2 => exact hs
  | exGroup k g0 h1 h2 =>
    intro g hg
    rcases List.mem_or_eq_of_mem_set hg with hg | rfl
    · exact hs g hg
    · have hg0 := hs g0 (mem_of_getElem?_eq h1)
      have hv := (isGroupValid_iff t g0).mp h2
      refine ⟨by simp, ?_, ?_⟩
      · intro a ha b hb
        rcases List.mem_append.mp ha with ha | ha <;> rcases List.mem_append.mp hb with hb | hb
        · exact hg0.2.1 a ha b hb
        · rw [List.mem_singleton.mp hb]
          exact ((hv a ha).2).symm
        · rw [List.mem_singleton.mp ha]
          exact (hv b hb).2
        · simp only [List.mem_singleton] at ha hb
          rw [ha, hb]
      · simp only [colors, List.map_append, List.map_cons, List.map_nil]
        refine List.Nodup.append hg0.2.2 (List.nodup_singleton _) ?_
        intro c hc1 hc2
        simp only [List.mem_singleton] at hc2
        subst hc2
        obtain ⟨u, hu, huc⟩ := List.mem_map.mp hc1
        exact (hv u hu).1 huc.symm

theorem Reach_nil (s s' : RummiKub) (h : Reach s [] s') : s' = s := by
  generalize hnil : ([] : List Tile) = hand at h
  cases h with
  | leaf => rfl
  | step s1 _ hand t hp hr => simp at hnil

theorem Reach_hand (s s' : RummiKub) (hand : List Tile) (h : Reach s hand s') :
    s'._hand = s._hand := by
  induction h with
  | leaf => rfl
  | step s s1 s2 hand t hp _ ih => rw [ih, Place_hand t s s1 hp]

theorem Reach_tiles (s s' : RummiKub) (hand : List Tile) (h : Reach s hand s') :
    (placedTiles s').Perm (placedTiles s ++ hand) := by
  induction h with
  | leaf => simp
  | step s s1 s2 hand t hp _ ih =>
    refine ih.trans ?_
    refine (List.Perm.append_right hand (Place_tiles t s s1 hp)).trans ?_
    rw [← List.append_assoc]
    exact (List.perm_append_singleton t (placedTiles s ++ hand)).symm

theorem Reach_groups (s s' : RummiKub) (hand : List Tile) (h : Reach s hand s')
    (hs : ∀ g ∈ s._groups, GroupBuilt g) : ∀ g ∈ s'._groups, GroupBuilt g := by
  induction h with
  | leaf => exact hs
  | step s s1 s2 hand t hp _ ih => exact ih (Place_groups t s s1 hp hs)

/-! ## `Solve` -/

/-- Fuel: `Solve` never runs out of it. -/
theorem Solve_fuel (impl : SortImpl) (s : RummiKub) : Solve impl s ≠ .error Fault.outOfFuel := by
  have h := SolveRec_fuel ((impl.sort s._hand).length + 1) s (impl.sort s._hand) (by omega)
  simp only [Solve]
  split
  · rename_i e he
    intro h1
    simp only [Except.error.injEq] at h1
    subst h1
    exact h he
  · simp

/-- A failed `Solve` leaves the solver as it was. -/
theorem Solve_false (impl : SortImpl) (s s' : RummiKub) (h : Solve impl s = .ok (false, s')) :
    s' = s := by
  simp only [Solve] at h
  split at h
  · simp at h
  · rename_i b s1 hand1 hr
    simp only [Except.ok.injEq, Prod.mk.injEq] at h
    obtain ⟨rfl, rfl⟩ := h
    exact ((SolveRec_spec _ _ _ _ _ _ hr).1 rfl).1

/-- A successful `Solve` stops at a leaf of the search space, reached by
placing the tiles of the sorted copy, that `isLegal` accepts. -/
theorem Solve_true (impl : SortImpl) (s s' : RummiKub) (h : Solve impl s = .ok (true, s')) :
    Reach s (impl.sort s._hand) s' ∧ isLegal s' = .ok true := by
  simp only [Solve] at h
  split at h
  · simp at h
  · rename_i b s1 hand1 hr
    simp only [Except.ok.injEq, Prod.mk.injEq] at h
    obtain ⟨rfl, rfl⟩ := h
    have := (SolveRec_spec _ _ _ _ _ _ hr).2 rfl
    exact ⟨this.1, this.2.1⟩

/-! ## What `isLegal` establishes -/

theorem scanBlocks_cons (b : Nat) (bs : List Nat) (len : Nat) :
    scanBlocks (b :: bs) len =
      if b ≠ 0 then scanBlocks bs (len + 1)
      else if 0 < len ∧ len < 3 then none else scanBlocks bs 0 := by
  by_cases hb : b = 0 <;> by_cases hl : len = 0
  · simp [scanBlocks, hb, hl]
  · have h1 : 0 < len := Nat.pos_of_ne_zero hl
    by_cases h3 : len < 3 <;> simp [scanBlocks, hb, h1, h3]
  · simp [scanBlocks, hb, hl]
  · have h1 : 0 < len := Nat.pos_of_ne_zero hl
    simp [scanBlocks, hb, h1]

/-- The scan on a block of occupied slots that starts at the first slot: if
the block is closed by an empty slot, its length plus the incoming `len` is at
least 3; if it reaches the end, `len` after the loop is that sum. -/
theorem scanBlocks_head (cs : List Nat) (l0 l : Nat) (h : scanBlocks cs l0 = some l)
    (j : Nat) (hj : j < cs.length) (hblk : ∀ k, k ≤ j → cs.getD k 0 ≠ 0) :
    (j + 1 < cs.length → cs.getD (j + 1) 0 = 0 → 3 ≤ j + 1 + l0) ∧
    (j + 1 = cs.length → l = j + 1 + l0) := by
  induction cs generalizing l0 j with
  | nil => simp at hj
  | cons b bs ih =>
    have hb : b ≠ 0 := by simpa using hblk 0 (Nat.zero_le _)
    rw [scanBlocks_cons] at h
    simp only [hb, ne_eq, not_false_eq_true, if_true] at h
    cases j with
    | zero =>
      constructor
      · intro hlen hz
        cases bs with
        | nil => simp at hlen
        | cons c bs1 =>
          have hc : c = 0 := by simpa using hz
          rw [scanBlocks_cons] at h
          simp only [hc, ne_eq, not_true_eq_false, if_false] at h
          by_cases h3 : l0 + 1 < 3
          · simp [h3] at h
          · omega
      · intro hlen
        cases bs with
        | nil =>
          simp only [scanBlocks, Option.some.injEq] at h
          omega
        | cons c bs1 => simp at hlen
    | succ j =>
      have hj1 : j < bs.length := by simpa using hj
      have := ih (l0 + 1) h j hj1 (fun k hk => by simpa using hblk (k + 1) (by omega))
      constructor
      · intro hlen hz
        have h1 := this.1 (by simpa using hlen) (by simpa using hz)
        omega
      · intro hlen
        have h1 := this.2 (by simpa using hlen)
        omega

/-- The scan on a block of occupied slots `i..j` that follows an empty slot. -/
theorem scanBlocks_inner (cs : List Nat) (l0 l : Nat) (h : scanBlocks cs l0 = some l)
    (i j : Nat) (hi : 0 < i) (hij : i ≤ j) (hj : j < cs.length)
    (hblk : ∀ k, i ≤ k → k ≤ j → cs.getD k 0 ≠ 0) (hlo : cs.getD (i - 1) 0 = 0) :
    (j + 1 < cs.length → cs.getD (j + 1) 0 = 0 → 3 ≤ j + 1 - i) ∧
    (j + 1 = cs.length → l = j + 1 - i) := by
  induction cs generalizing l0 i j with
  | nil => simp at hj
  | cons b bs ih =>
    obtain ⟨i1, rfl⟩ : ∃ i1, i = i1 + 1 := ⟨i - 1, by omega⟩
    obtain ⟨j1, rfl⟩ : ∃ j1, j = j1 + 1 := ⟨j - 1, by omega⟩
    have hj1 : j1 < bs.length := by simpa using hj
    have hblk1 : ∀ k, i1 ≤ k → k ≤ j1 → bs.getD k 0 ≠ 0 := fun k hk1 hk2 => by
      simpa using hblk (k + 1) (by omega) (by omega)
    rw [scanBlocks_cons] at h
    cases i1 with
    | zero =>
      have hb : b = 0 := by simpa using hlo
      simp only [hb, ne_eq, not_true_eq_false, if_false] at h
      have h0 : scanBlocks bs 0 = some l := by
        by_cases hc : 0 < l0 ∧ l0 < 3
        · simp [hc] at h
        · simpa [hc] using h
      have := scanBlocks_head bs 0 l h0 j1 hj1 (fun k hk => hblk1 k (Nat.zero_le _) hk)
      constructor
      · intro hlen hz
        have h1 := this.1 (by simpa using hlen) (by simpa using hz)
        omega
      · intro hlen
        have h1 := this.2 (by simpa using hlen)
        omega
    | succ i2 =>
      have hlo1 : bs.getD (i2 + 1 - 1) 0 = 0 := by simpa using hlo
      have hex : ∃ l1, scanBlocks bs l1 = some l := by
        by_cases hb : b = 0
        · simp only [hb, ne_eq, not_true_eq_false, if_false] at h
          by_cases hc : 0 < l0 ∧ l0 < 3
          · simp [hc] at h
          · exact ⟨0, by simpa [hc] using h⟩
        · simp only [hb, ne_eq, not_false_eq_true, if_true] at h
          exact ⟨l0 + 1, h⟩
      obtain ⟨l1, hl1⟩ := hex
      have := ih l1 hl1 (i2 + 1) j1 (by omega) (by omega) hj1 hblk1 hlo1
      constructor
      · intro hlen hz
        have h1 := this.1 (by simpa using hlen) (by simpa using hz)
        omega
      · intro hlen
        have h1 := this.2 (by simpa using hlen)
        omega

theorem getD_set (cs : List Nat) (i k v : Nat) (hi : i < cs.length) :
    (cs.set i v).getD k 0 = if k = i then v else cs.getD k 0 := by
  simp only [List.getD_eq_getElem?_getD, List.getElem?_set]
  by_cases hk : i = k
  · subst hk
    simp [hi]
  · have hk1 : ¬ k = i := fun h => hk h.symm
    simp [hk, hk1]

/-- The counting loop, when it neither returns `false` nor leaves the array:
every tile has the color of the first tile and a denomination in `0..12`, and
slot `k` has been incremented once for every tile of denomination `k`. -/
theorem countRun_spec (color : Color) (ts : List Tile) (counts counts' : List Nat)
    (hlen : counts.length = 13) (h : countRun color ts counts = .ok (some counts')) :
    counts'.length = 13 ∧
    (∀ t ∈ ts, t.color = color ∧ 0 ≤ t.denomination ∧ t.denomination < 13) ∧
    ∀ k : Nat, counts'.getD k 0 =
      counts.getD k 0 + ts.countP (fun t => decide (t.denomination = (k : Int))) := by
  induction ts generalizing counts with
  | nil =>
    simp only [countRun, Except.ok.injEq, Option.some.injEq] at h
    subst h
    simp [hlen]
  | cons t ts ih =>
    simp only [countRun] at h
    by_cases hc : t.color = color
    · by_cases hb : 0 ≤ t.denomination ∧ t.denomination < 13
      · simp only [hc, bne_self_eq_false, Bool.false_eq_true, if_false, hb, and_self,
          if_true] at h
        have hi : t.denomination.toNat < counts.length := by omega
        obtain ⟨h1, h2, h3⟩ := ih _ (by simpa using hlen) h
        refine ⟨h1, ?_, ?_⟩
        · intro u hu
          rcases List.mem_cons.mp hu with rfl | hu
          · exact ⟨hc, hb.1, hb.2⟩
          · exact h2 u hu
        · intro k
          rw [h3 k, getD_set _ _ _ _ hi, List.countP_cons]
          by_cases hk : k = t.denomination.toNat
          · have hk1 : decide (t.denomination = (k : Int)) = true := by
              simp only [decide_eq_true_eq]
              omega
            rw [if_pos hk, hk1, if_pos rfl, ← hk]
            omega
          · have hk1 : decide (t.denomination = (k : Int)) = false := by
              simp only [decide_eq_false_iff_not]
              omega
            rw [if_neg hk, hk1, if_neg (by simp)]
            omega
      · simp [hc, hb] at h
    · simp [hc] at h

theorem mem_denominations (r : List Tile) (d : Int) :
    d ∈ denominations r ↔ 0 < r.countP (fun t => decide (t.denomination = d)) := by
  simp only [denominations, List.mem_map, List.countP_pos_iff, decide_eq_true_eq]

theorem count_denominations (r : List Tile) (d : Int) :
    (denominations r).count d = r.countP (fun t => decide (t.denomination = d)) := by
  induction r with
  | nil => simp [denominations]
  | cons t ts ih =>
    simp only [denominations, List.map_cons, List.count_cons, List.countP_cons] at ih ⊢
    rw [ih]
    by_cases h : t.denomination = d <;> simp [h]

/-- A run that passes the body of the loop over `_runs` satisfies the run
invariant. -/
theorem checkRun_true (hand : List Tile) (r : List Tile)
    (h : checkRun hand true r = .ok true) : RunInvariant r := by
  unfold checkRun at h
  split at h
  · simp at h
  rename_i hlen
  split at h
  · simp at h
  rename_i hhand
  split at h
  · simp at h
  rename_i t0 ts
  split at h
  · simp at h
  · simp at h
  rename_i counts hcount
  split at h
  · simp at h
  rename_i hany
  simp only [if_true] at h
  split at h
  · simp at h
  rename_i len hscan
  split at h
  · simp at h
  rename_i hlast
  obtain ⟨hclen, htiles, hcounts⟩ :=
    countRun_spec t0.color (t0 :: ts) (List.replicate 13 0) counts (by simp) hcount
  have hslot : ∀ k : Nat, counts.getD k 0 =
      (t0 :: ts).countP (fun t => decide (t.denomination = (k : Int))) := by
    intro k
    rw [hcounts k]
    have : (List.replicate 13 0).getD k 0 = 0 := by
      simp only [List.getD_eq_getElem?_getD, List.getElem?_replicate]
      split <;> rfl
    omega
  have hle : ∀ k : Nat, counts.getD k 0 ≤ 1 := by
    intro k
    by_cases hk : k < counts.length
    · have hmem : counts.getD k 0 ∈ counts := by
        rw [List.getD_eq_getElem _ _ hk]
        exact List.getElem_mem hk
      have hall : ∀ x ∈ counts, x ≤ 1 := by simpa using hany
      exact hall _ hmem
    · rw [List.getD_eq_default _ _ (by omega)]
      omega
  have hpresent : ∀ k : Nat, (k : Int) ∈ denominations (t0 :: ts) ↔ counts.getD k 0 ≠ 0 := by
    intro k
    rw [mem_denominations, hslot k]
    omega
  have hrange : ∀ d, d ∈ denominations (t0 :: ts) → 0 ≤ d ∧ d < 13 := by
    intro d hd
    simp only [denominations, List.mem_map] at hd
    obtain ⟨t, ht, rfl⟩ := hd
    exact (htiles t ht).2
  refine ⟨by omega, ?_, ?_, ?_⟩
  · intro t ht u hu
    rw [(htiles t ht).1, (htiles u hu).1]
  · rw [List.nodup_iff_count_le_one]
    intro d
    by_cases hd : d ∈ denominations (t0 :: ts)
    · obtain ⟨h0, h13⟩ := hrange d hd
      obtain ⟨k, rfl⟩ := Int.eq_ofNat_of_zero_le h0
      rw [count_denominations, ← hslot k]
      exact hle k
    · rw [List.count_eq_zero_of_not_mem hd]
      omega
  · intro lo hi hlohi hblk hbelow habove
    obtain ⟨hlo0, hlo13⟩ := hrange lo (hblk lo (le_refl _) hlohi)
    obtain ⟨hhi0, hhi13⟩ := hrange hi (hblk hi hlohi (le_refl _))
    obtain ⟨i, rfl⟩ := Int.eq_ofNat_of_zero_le hlo0
    obtain ⟨j, rfl⟩ := Int.eq_ofNat_of_zero_le hhi0
    have hij : i ≤ j := by omega
    have hj : j < counts.length := by omega
    have hblk1 : ∀ k, i ≤ k → k ≤ j → counts.getD k 0 ≠ 0 := fun k hk1 hk2 =>
      (hpresent k).mp (hblk k (by omega) (by omega))
    have habove1 : counts.getD (j + 1) 0 = 0 := by
      by_contra hne
      exact habove (by simpa using (hpresent (j + 1)).mpr hne)
    have hj12 : j + 1 = counts.length → counts.getD 12 0 ≠ 0 := fun hje => by
      have : j = 12 := by omega
      rw [← this]
      exact hblk1 j hij (le_refl _)
    rcases Nat.eq_zero_or_pos i with rfl | hi
    · have := scanBlocks_head counts 0 len hscan j hj (fun k hk => hblk1 k (Nat.zero_le _) hk)
      by_cases hend : j + 1 < counts.length
      · have := this.1 hend habove1
        omega
      · have hje : j + 1 = counts.length := by omega
        have := this.2 hje
        omega
    · have hbelow1 : counts.getD (i - 1) 0 = 0 := by
        by_contra hne
        apply hbelow
        have := (hpresent (i - 1)).mpr hne
        have hc : ((i - 1 : Nat) : Int) = (i : Int) - 1 := by omega
        rwa [hc] at this
      have := scanBlocks_inner counts 0 len hscan i j hi hij hj hblk1 hbelow1
      by_cases hend : j + 1 < counts.length
      · have := this.1 hend habove1
        omega
      · have hje : j + 1 = counts.length := by omega
        have h1 := this.2 hje
        have h2 := hj12 hje
        have h3 : ¬ len < 3 := fun hl => hlast ⟨h2, hl⟩
        omega

theorem checkRuns_true (hand : List Tile) (rs : List (List Tile))
    (h : checkRuns hand true rs = .ok true) : ∀ r ∈ rs, RunInvariant r := by
  induction rs with
  | nil => simp
  | cons r rs ih =>
    simp only [checkRuns] at h
    split at h
    · simp at h
    · simp at h
    · rename_i hr
      intro x hx
      rcases List.mem_cons.mp hx with rfl | hx
      · exact checkRun_true hand _ hr
      · exact ih h x hx

theorem checkGroup_true (hand : List Tile) (g ts : List Tile) (hts : ts ≠ [])
    (h : checkGroup hand g ts = true) : g.length = 3 ∨ g.length = 4 := by
  cases ts with
  | nil => exact absurd rfl hts
  | cons t ts =>
    simp only [checkGroup] at h
    split at h
    · simp at h
    · rename_i hsize
      simp only [Bool.or_eq_true, decide_eq_true_eq, not_or, not_lt] at hsize
      omega

theorem checkGroups_true (hand : List Tile) (gs : List (List Tile))
    (h : checkGroups hand gs = true) :
    ∀ g ∈ gs, g ≠ [] → g.length = 3 ∨ g.length = 4 := by
  induction gs with
  | nil => simp
  | cons g gs ih =>
    simp only [checkGroups] at h
    split at h
    · rename_i hg
      intro x hx hne
      rcases List.mem_cons.mp hx with rfl | hx
      · exact checkGroup_true hand _ _ hne hg
      · exact ih h x hx hne
    · simp at h

/-- A partition accepted by `isLegal`: every run satisfies the run invariant
and every non-empty group has size 3 or 4. -/
theorem isLegal_true (s : RummiKub) (h : isLegal s = .ok true) :
    (∀ r ∈ s._runs, RunInvariant r) ∧
    (∀ g ∈ s._groups, g ≠ [] → g.length = 3 ∨ g.length = 4) := by
  simp only [isLegal] at h
  split at h
  · simp at h
  · rename_i hg
    exact ⟨checkRuns_true _ _ h, checkGroups_true _ _ (by simpa using hg)⟩

theorem placedTiles_load (hand : List Tile) : placedTiles (load hand) = [] := by
  simp [load_eq, placedTiles]

/-- After a successful `Solve` on a solver whose groups were all built by the
search, the runs and groups hold the old tiles and the tiles of the hand, the
runs satisfy the run invariant and the groups the group invariant. -/
theorem Solve_true_sound (impl : SortImpl) (s s' : RummiKub)
    (h : Solve impl s = .ok (true, s')) :
    s'._hand = s._hand ∧
    (placedTiles s').Perm (placedTiles s ++ s._hand) ∧
    (∀ r ∈ s'._runs, RunInvariant r) ∧
    ((∀ g ∈ s._groups, GroupBuilt g) → ∀ g ∈ s'._groups, GroupInvariant g) := by
  obtain ⟨hreach, hlegal⟩ := Solve_true impl s s' h
  obtain ⟨hruns, hgroups⟩ := isLegal_true s' hlegal
  refine ⟨Reach_hand _ _ _ hreach, ?_, hruns, ?_⟩
  · exact (Reach_tiles _ _ _ hreach).trans (List.Perm.append_left _ (impl.perm _))
  · intro hs g hg
    have hb := Reach_groups _ _ _ hreach hs g hg
    exact ⟨hgroups g hg hb.1, hb.2.1, hb.2.2⟩

/-! ## Small hands, evaluated symbolically -/

theorem inHand_of_mem (hand : List Tile) (t : Tile) (h : t ∈ hand) : inHand hand t = true := by
  simp only [inHand, List.any_eq_true, Bool.and_eq_true, beq_iff_eq]
  exact ⟨t, h, rfl, rfl⟩

theorem SolveRec_one (h0 : List Tile) (x : Tile) :
    SolveRec 2 ⟨h0, [], []⟩ [x] = .ok (false, ⟨h0, [], []⟩, [x]) := by
  simp [SolveRec, tryActions, GetOptions, runOptions, groupOptions, applyAction, undoAction,
    popBack, isLegal, checkGroups, checkGroup, checkRuns, checkRun]

theorem SolveRec_two (h0 : List Tile) (x y : Tile) :
    SolveRec 3 ⟨h0, [], []⟩ [x, y] = .ok (false, ⟨h0, [], []⟩, [x, y]) := by
  by_cases h1 : x.denomination = y.denomination <;> by_cases h2 : x.color = y.color <;>
  simp [SolveRec, tryActions, GetOptions, runOptions, groupOptions, applyAction, undoAction,
    popBack, popAt, pushAt, isLegal, checkGroups, checkGroup, checkRuns, checkRun,
    isRunValid, isGroupValid, h1, h2]

theorem SolveRec_three_of_a_kind (h0 : List Tile) (x y z : Tile)
    (hxy : x.denomination = y.denomination) (hyz : y.denomination = z.denomination)
    (cxy : x.color ≠ y.color) (cxz : x.color ≠ z.color) (cyz : y.color ≠ z.color)
    (hx : inHand h0 x = true) (hy : inHand h0 y = true) (hz : inHand h0 z = true) :
    SolveRec 4 ⟨h0, [], []⟩ [x, y, z] = .ok (true, ⟨h0, [[z, y, x]], []⟩, []) := by
  have cyx : y.color ≠ x.color := fun h => cxy h.symm
  have czx : z.color ≠ x.color := fun h => cxz h.symm
  have czy : z.color ≠ y.color := fun h => cyz h.symm
  have hxz : x.denomination = z.denomination := hxy.trans hyz
  simp [SolveRec, tryActions, GetOptions, runOptions, groupOptions, applyAction, undoAction,
    popBack, popAt, pushAt, isLegal, checkGroups, checkGroup, checkRuns, checkRun,
    isRunValid, isGroupValid, hxy, hyz, hxz, cxy, cxz, cyz, cyx, czx, czy, hx, hy, hz]

/-! ## The claims -/

open Color

/-- C1, evaluated at the failing input (1,Red),(2,Red),(3,Red),(13,Red), a hand
with denominations in 1..13.  The first leaf of the search holds the single run
[13,3,2,1], which violates the run invariant: its block 13 has length 1.
`isLegal` does not reject it by any of its tests; it increments `counts[13]`,
outside the 13-slot array.  The 13 slots then hold the counts of the tiles
3, 2, 1 alone, and on them the remaining tests all pass: no count above 1, the
scan ends with `len = 0`, and `counts[12]` is 0. -/
theorem C1_run_with_13_not_rejected :
    (∀ t ∈ [(⟨1, Red⟩ : Tile), ⟨2, Red⟩, ⟨3, Red⟩, ⟨13, Red⟩],
      1 ≤ t.denomination ∧ t.denomination ≤ 13) ∧
    Reach (load [⟨1, Red⟩, ⟨2, Red⟩, ⟨3, Red⟩, ⟨13, Red⟩])
      (stableSort.sort [⟨1, Red⟩, ⟨2, Red⟩, ⟨3, Red⟩, ⟨13, Red⟩])
      ⟨[⟨1, Red⟩, ⟨2, Red⟩, ⟨3, Red⟩, ⟨13, Red⟩], [],
        [[⟨13, Red⟩, ⟨3, Red⟩, ⟨2, Red⟩, ⟨1, Red⟩]]⟩ ∧
    ¬ RunInvariant [⟨13, Red⟩, ⟨3, Red⟩, ⟨2, Red⟩, ⟨1, Red⟩] ∧
    isLegal ⟨[⟨1, Red⟩, ⟨2, Red⟩, ⟨3, Red⟩, ⟨13, Red⟩], [],
        [[⟨13, Red⟩, ⟨3, Red⟩, ⟨2, Red⟩, ⟨1, Red⟩]]⟩ = .error Fault.outOfBounds ∧
    Solve stableSort (load [⟨1, Red⟩, ⟨2, Red⟩, ⟨3, Red⟩, ⟨13, Red⟩]) =
      .error Fault.outOfBounds ∧
    countRun Red [⟨3, Red⟩, ⟨2, Red⟩, ⟨1, Red⟩] (List.replicate 13 0) =
      .ok (some [0, 1, 1, 1, 0, 0, 0, 0, 0, 0, 0, 0, 0]) ∧
    ([0, 1, 1, 1, 0, 0, 0, 0, 0, 0, 0, 0, 0] : List Nat).any (fun c => decide (c > 1)) = false ∧
    scanBlocks [0, 1, 1, 1, 0, 0, 0, 0, 0, 0, 0, 0, 0] 0 = some 0 ∧
    ([0, 1, 1, 1, 0, 0, 0, 0, 0, 0, 0, 0, 0] : List Nat).getD 12 0 = 0 := by
  refine ⟨by decide, ?_, ?_, rfl, rfl, rfl, rfl, rfl, rfl⟩
  · exact Reach.step _ _ _ [⟨1, Red⟩, ⟨2, Red⟩, ⟨3, Red⟩] ⟨13, Red⟩
      (Place.addRun ⟨[⟨1, Red⟩, ⟨2, Red⟩, ⟨3, Red⟩, ⟨13, Red⟩], [], []⟩)
      (Reach.step _ _ _ [⟨1, Red⟩, ⟨2, Red⟩] ⟨3, Red⟩
        (Place.exRun ⟨[⟨1, Red⟩, ⟨2, Red⟩, ⟨3, Red⟩, ⟨13, Red⟩], [], [[⟨13, Red⟩]]⟩ 0
          [⟨13, Red⟩] rfl rfl)
        (Reach.step _ _ _ [⟨1, Red⟩] ⟨2, Red⟩
          (Place.exRun ⟨[⟨1, Red⟩, ⟨2, Red⟩, ⟨3, Red⟩, ⟨13, Red⟩], [],
            [[⟨13, Red⟩, ⟨3, Red⟩]]⟩ 0 [⟨13, Red⟩, ⟨3, Red⟩] rfl rfl)
          (Reach.step _ _ _ [] ⟨1, Red⟩
            (Place.exRun ⟨[⟨1, Red⟩, ⟨2, Red⟩, ⟨3, Red⟩, ⟨13, Red⟩], [],
              [[⟨13, Red⟩, ⟨3, Red⟩, ⟨2, Red⟩]]⟩ 0 [⟨13, Red⟩, ⟨3, Red⟩, ⟨2, Red⟩] rfl rfl)
            (Reach.leaf _))))
  · intro hinv
    have h := hinv.2.2.2 13 13 (le_refl _)
      (fun d h1 h2 => by
        have hd : d = 13 := by omega
        subst hd
        simp [denominations])
      (by simp [denominations]) (by simp [denominations])
    omega

/-- C3 (soundness, coverage): for every hand loaded into a fresh solver, if the
search run by `Solve` returns `true`, the multiset of the tiles of `GetRuns`
together with the tiles of `GetGroups` is the multiset of the added tiles. -/
theorem C3_coverage (impl : SortImpl) (hand : List Tile) (s' : RummiKub)
    (h : Solve impl (load hand) = .ok (true, s')) :
    (((GetRuns s').flatten ++ (GetGroups s').flatten : List Tile) : Multiset Tile) =
      (hand : Multiset Tile) := by
  have hp := (Solve_true_sound impl (load hand) s' h).2.1
  rw [placedTiles_load] at hp
  simp only [load_eq, List.nil_append] at hp
  exact Multiset.coe_eq_coe.mpr hp

theorem C3_coverage_witness :
    Solve stableSort (load [⟨3, Red⟩, ⟨1, Red⟩, ⟨2, Red⟩]) =
      .ok (true, ⟨[⟨3, Red⟩, ⟨1, Red⟩, ⟨2, Red⟩], [], [[⟨3, Red⟩, ⟨2, Red⟩, ⟨1, Red⟩]]⟩) ∧
    (((GetRuns ⟨[⟨3, Red⟩, ⟨1, Red⟩, ⟨2, Red⟩], [], [[⟨3, Red⟩, ⟨2, Red⟩, ⟨1, Red⟩]]⟩).flatten ++
        (GetGroups ⟨[⟨3, Red⟩, ⟨1, Red⟩, ⟨2, Red⟩], [],
          [[⟨3, Red⟩, ⟨2, Red⟩, ⟨1, Red⟩]]⟩).flatten : List Tile) : Multiset Tile) =
      (([⟨3, Red⟩, ⟨1, Red⟩, ⟨2, Red⟩] : List Tile) : Multiset Tile) :=
  ⟨rfl, C3_coverage stableSort [⟨3, Red⟩, ⟨1, Red⟩, ⟨2, Red⟩] _ rfl⟩

/-- C4 (soundness, group invariant): for every hand loaded into a fresh solver,
if the search run by `Solve` returns `true`, every group of `GetGroups` has
size 3 or 4, one denomination and no two tiles of one color. -/
theorem C4_groups_sound (impl : SortImpl) (hand : List Tile) (s' : RummiKub)
    (h : Solve impl (load hand) = .ok (true, s')) :
    ∀ g ∈ GetGroups s', GroupInvariant g := by
  refine (Solve_true_sound impl (load hand) s' h).2.2.2 ?_
  intro g hg
  rw [load_eq] at hg
  exact absurd hg (List.not_mem_nil g)

theorem C4_groups_sound_witness :
    Solve stableSort (load [⟨5, Red⟩, ⟨5, Green⟩, ⟨5, Blue⟩]) =
      .ok (true, ⟨[⟨5, Red⟩, ⟨5, Green⟩, ⟨5, Blue⟩],
        [[⟨5, Blue⟩, ⟨5, Green⟩, ⟨5, Red⟩]], []⟩) ∧
    ∀ g ∈ GetGroups ⟨[⟨5, Red⟩, ⟨5, Green⟩, ⟨5, Blue⟩],
        [[⟨5, Blue⟩, ⟨5, Green⟩, ⟨5, Red⟩]], []⟩, GroupInvariant g :=
  ⟨rfl, C4_groups_sound stableSort [⟨5, Red⟩, ⟨5, Green⟩, ⟨5, Blue⟩] _ rfl⟩

/-- C6 (failure reporting): for every hand loaded into a fresh solver, if the
search run by `Solve` returns `false`, both `GetGroups` and `GetRuns` are empty
afterwards. -/
theorem C6_failure_empty (impl : SortImpl) (hand : List Tile) (s' : RummiKub)
    (h : Solve impl (load hand) = .ok (false, s')) :
    GetGroups s' = [] ∧ GetRuns s' = [] := by
  rw [Solve_false impl (load hand) s' h, load_eq]
  exact ⟨rfl, rfl⟩

theorem C6_failure_empty_witness :
    Solve stableSort (load [⟨1, Red⟩, ⟨2, Red⟩]) =
      .ok (false, ⟨[⟨1, Red⟩, ⟨2, Red⟩], [], []⟩) ∧
    GetGroups ⟨[⟨1, Red⟩, ⟨2, Red⟩], [], []⟩ = [] ∧
    GetRuns ⟨[⟨1, Red⟩, ⟨2, Red⟩], [], []⟩ = [] :=
  ⟨rfl, C6_failure_empty stableSort [⟨1, Red⟩, ⟨2, Red⟩] _ rfl⟩

/-- C5, the claim as stated fails: on the hand (1,Red),(2,Red),(3,Red) the first
`Solve` succeeds with the single run [3,2,1]; the second `Solve` on the same
solver succeeds again and leaves two runs. -/
theorem C5_repeat_counterexample :
    Solve stableSort (load [⟨1, Red⟩, ⟨2, Red⟩, ⟨3, Red⟩]) =
      .ok (true, ⟨[⟨1, Red⟩, ⟨2, Red⟩, ⟨3, Red⟩], [], [[⟨3, Red⟩, ⟨2, Red⟩, ⟨1, Red⟩]]⟩) ∧
    Solve stableSort ⟨[⟨1, Red⟩, ⟨2, Red⟩, ⟨3, Red⟩], [], [[⟨3, Red⟩, ⟨2, Red⟩, ⟨1, Red⟩]]⟩ =
      .ok (true, ⟨[⟨1, Red⟩, ⟨2, Red⟩, ⟨3, Red⟩], [],
        [[⟨3, Red⟩, ⟨2, Red⟩, ⟨1, Red⟩], [⟨3, Red⟩, ⟨2, Red⟩, ⟨1, Red⟩]]⟩) ∧
    GetRuns ⟨[⟨1, Red⟩, ⟨2, Red⟩, ⟨3, Red⟩], [],
        [[⟨3, Red⟩, ⟨2, Red⟩, ⟨1, Red⟩], [⟨3, Red⟩, ⟨2, Red⟩, ⟨1, Red⟩]]⟩ ≠
      GetRuns ⟨[⟨1, Red⟩, ⟨2, Red⟩, ⟨3, Red⟩], [], [[⟨3, Red⟩, ⟨2, Red⟩, ⟨1, Red⟩]]⟩ :=
  ⟨rfl, rfl, by decide⟩

/-- C5 as amended: `Solve` does not clear `_runs` and `_groups`, so a second
`Solve` after a successful first one continues from the first result.  If the
second search returns `false`, `GetGroups` and `GetRuns` are what they were
after the first call; if it returns `true`, they hold every added tile exactly
twice; for the empty hand they are what they were. -/
theorem C5_second_solve (impl : SortImpl) (hand : List Tile) (s1 : RummiKub)
    (h1 : Solve impl (load hand) = .ok (true, s1)) (b : Bool) (s2 : RummiKub)
    (h2 : Solve impl s1 = .ok (b, s2)) :
    (b = false → GetGroups s2 = GetGroups s1 ∧ GetRuns s2 = GetRuns s1) ∧
    (b = true →
      (((GetRuns s2).flatten ++ (GetGroups s2).flatten : List Tile) : Multiset Tile) =
        (hand : Multiset Tile) + (hand : Multiset Tile)) ∧
    (hand = [] → GetGroups s2 = GetGroups s1 ∧ GetRuns s2 = GetRuns s1) := by
  obtain ⟨hhand, htiles, -, -⟩ := Solve_true_sound impl (load hand) s1 h1
  rw [placedTiles_load] at htiles
  simp only [load_eq, List.nil_append] at htiles hhand
  have hfalse : b = false → GetGroups s2 = GetGroups s1 ∧ GetRuns s2 = GetRuns s1 := by
    intro hb
    subst hb
    rw [Solve_false impl s1 s2 h2]
    exact ⟨rfl, rfl⟩
  have htrue : b = true → (placedTiles s2).Perm (hand ++ hand) := by
    intro hb
    subst hb
    have := (Solve_true_sound impl s1 s2 h2).2.1
    rw [hhand] at this
    exact this.trans (List.Perm.append_right _ htiles)
  refine ⟨hfalse, ?_, ?_⟩
  · intro hb
    have := Multiset.coe_eq_coe.mpr (htrue hb)
    rw [← Multiset.coe_add]
    exact this
  · intro hnil
    subst hnil
    have hsort : impl.sort (load []).1 = [] := by
      rw [load_eq]
      exact List.Perm.eq_nil (impl.perm [])
    have hreach := (Solve_true impl (load []) s1 h1).1
    rw [hsort] at hreach
    have hs1 : s1 = load [] := Reach_nil _ _ hreach
    rw [hs1, h1] at h2
    simp only [Except.ok.injEq, Prod.mk.injEq] at h2
    rw [← h2.2, hs1]
    exact ⟨rfl, rfl⟩

theorem C5_second_solve_witness :
    Solve stableSort (load [⟨1, Red⟩, ⟨2, Red⟩, ⟨3, Red⟩]) =
      .ok (true, ⟨[⟨1, Red⟩, ⟨2, Red⟩, ⟨3, Red⟩], [], [[⟨3, Red⟩, ⟨2, Red⟩, ⟨1, Red⟩]]⟩) ∧
    Solve stableSort ⟨[⟨1, Red⟩, ⟨2, Red⟩, ⟨3, Red⟩], [], [[⟨3, Red⟩, ⟨2, Red⟩, ⟨1, Red⟩]]⟩ =
      .ok (true, ⟨[⟨1, Red⟩, ⟨2, Red⟩, ⟨3, Red⟩], [],
        [[⟨3, Red⟩, ⟨2, Red⟩, ⟨1, Red⟩], [⟨3, Red⟩, ⟨2, Red⟩, ⟨1, Red⟩]]⟩) ∧
    (((GetRuns ⟨[⟨1, Red⟩, ⟨2, Red⟩, ⟨3, Red⟩], [],
          [[⟨3, Red⟩, ⟨2, Red⟩, ⟨1, Red⟩], [⟨3, Red⟩, ⟨2, Red⟩, ⟨1, Red⟩]]⟩).flatten ++
        (GetGroups ⟨[⟨1, Red⟩, ⟨2, Red⟩, ⟨3, Red⟩], [],
          [[⟨3, Red⟩, ⟨2, Red⟩, ⟨1, Red⟩], [⟨3, Red⟩, ⟨2, Red⟩, ⟨1, Red⟩]]⟩).flatten :
          List Tile) : Multiset Tile) =
      (([⟨1, Red⟩, ⟨2, Red⟩, ⟨3, Red⟩] : List Tile) : Multiset Tile) +
        (([⟨1, Red⟩, ⟨2, Red⟩, ⟨3, Red⟩] : List Tile) : Multiset Tile) :=
  ⟨rfl, rfl,
   (C5_second_solve stableSort [⟨1, Red⟩, ⟨2, Red⟩, ⟨3, Red⟩] _ rfl true _ rfl).2.1 rfl⟩

/-- C7, the claim as stated fails: on the empty hand the search run by `Solve`
returns `true` and both `GetGroups` and `GetRuns` are empty. -/
theorem C7_empty_hand_succeeds :
    Solve stableSort (load []) = .ok (true, ⟨[], [], []⟩) ∧
    GetGroups ⟨[], [], []⟩ = [] ∧ GetRuns ⟨[], [], []⟩ = [] :=
  ⟨rfl, rfl, rfl⟩

/-- C7 as amended: for every non-empty hand loaded into a fresh solver, if both
`GetGroups` and `GetRuns` are empty after `Solve`, the search returned `false`. -/
theorem C7_empty_result (impl : SortImpl) (hand : List Tile) (hne : hand ≠ []) (b : Bool)
    (s' : RummiKub) (h : Solve impl (load hand) = .ok (b, s'))
    (hg : GetGroups s' = []) (hr : GetRuns s' = []) : b = false := by
  cases b with
  | false => rfl
  | true =>
    have hp := (Solve_true_sound impl (load hand) s' h).2.1
    rw [placedTiles_load] at hp
    simp only [GetGroups, GetRuns] at hg hr
    simp only [load_eq, List.nil_append, placedTiles, hg, hr, List.flatten_nil] at hp
    exact absurd (List.Perm.nil_eq hp).symm hne

theorem C7_empty_result_witness :
    ([⟨1, Red⟩, ⟨2, Red⟩] : List Tile) ≠ [] ∧
    Solve stableSort (load [⟨1, Red⟩, ⟨2, Red⟩]) =
      .ok (false, ⟨[⟨1, Red⟩, ⟨2, Red⟩], [], []⟩) ∧
    false = false :=
  ⟨by decide, rfl,
   C7_empty_result stableSort [⟨1, Red⟩, ⟨2, Red⟩] (by decide) false _ rfl rfl rfl⟩

/-- C2, evaluated at the failing input (11,Red),(12,Red),(13,Red): all
denominations are in 1..13 and the single run 11-12-13 is a legal full
partition, but the search does not return `true`: at the first leaf `isLegal`
increments `counts[13]`, outside the 13-slot array. -/
theorem C2_run_ending_at_13_not_found :
    (∀ t ∈ [(⟨11, Red⟩ : Tile), ⟨12, Red⟩, ⟨13, Red⟩],
      1 ≤ t.denomination ∧ t.denomination ≤ 13) ∧
    LegalPartition [⟨11, Red⟩, ⟨12, Red⟩, ⟨13, Red⟩] [[⟨11, Red⟩, ⟨12, Red⟩, ⟨13, Red⟩]] [] ∧
    Solve stableSort (load [⟨11, Red⟩, ⟨12, Red⟩, ⟨13, Red⟩]) = .error Fault.outOfBounds ∧
    ∀ s', Solve stableSort (load [⟨11, Red⟩, ⟨12, Red⟩, ⟨13, Red⟩]) ≠ .ok (true, s') := by
  have hsolve : Solve stableSort (load [⟨11, Red⟩, ⟨12, Red⟩, ⟨13, Red⟩]) =
      .error Fault.outOfBounds := rfl
  refine ⟨by decide, ⟨?_, ?_, ?_⟩, hsolve, ?_⟩
  · simp
  · intro r hr
    simp only [List.mem_singleton] at hr
    subst hr
    refine ⟨by simp, ?_, by decide, ?_⟩
    · intro t ht u hu
      simp only [List.mem_cons, List.mem_singleton, List.not_mem_nil, or_false] at ht hu
      rcases ht with rfl | rfl | rfl <;> rcases hu with rfl | rfl | rfl <;> rfl
    · intro lo hi hle hblk hbelow habove
      have h1 := hblk lo (le_refl _) hle
      have h2 := hblk hi hle (le_refl _)
      simp only [denominations, List.map_cons, List.map_nil, List.mem_cons, List.mem_singleton,
        List.not_mem_nil, or_false, not_or] at h1 h2 hbelow habove
      omega
  · intro g hg
    simp at hg
  · intro s' h
    rw [hsolve] at h
    simp at h

/-- C8, evaluated at the failing input d = 11, c = Red: the only leaf before
any backtracking holds the run [13,12,11], and `isLegal` increments
`counts[13]`, outside the 13-slot array. -/
theorem C8_run_11_12_13_out_of_bounds :
    Solve stableSort (load [⟨11, Red⟩, ⟨12, Red⟩, ⟨13, Red⟩]) = .error Fault.outOfBounds ∧
    isLegal ⟨[⟨11, Red⟩, ⟨12, Red⟩, ⟨13, Red⟩], [], [[⟨13, Red⟩, ⟨12, Red⟩, ⟨11, Red⟩]]⟩ =
      .error Fault.outOfBounds :=
  ⟨rfl, rfl⟩

/-- Three consecutive tiles of one color whose denominations stay below 13 are
solved as the claim C8 says: one run, no group. -/
theorem Solve_three_consecutive (d : Int) (c : Color) (h1 : 1 ≤ d) (h2 : d + 2 ≤ 12) :
    Solve stableSort (load [⟨d, c⟩, ⟨d + 1, c⟩, ⟨d + 2, c⟩]) =
      .ok (true, ⟨[⟨d, c⟩, ⟨d + 1, c⟩, ⟨d + 2, c⟩], [], [[⟨d + 2, c⟩, ⟨d + 1, c⟩, ⟨d, c⟩]]⟩) := by
  have hd : d = 1 ∨ d = 2 ∨ d = 3 ∨ d = 4 ∨ d = 5 ∨ d = 6 ∨ d = 7 ∨ d = 8 ∨ d = 9 ∨ d = 10 := by
    omega
  rcases hd with rfl | rfl | rfl | rfl | rfl | rfl | rfl | rfl | rfl | rfl <;> cases c <;> rfl

/-- C9 (three tiles of one denomination): for every denomination d in 1..13 and
three pairwise distinct colors, `Solve` on a fresh solver holding exactly those
three tiles returns `true` and leaves exactly one group, of size 3 and made of
those three tiles, and no run. -/
theorem C9_three_of_a_kind (impl : SortImpl) (d : Int) (c1 c2 c3 : Color)
    (_hd : 1 ≤ d ∧ d ≤ 13) (h12 : c1 ≠ c2) (h13 : c1 ≠ c3) (h23 : c2 ≠ c3) :
    ∃ s' g, Solve impl (load [⟨d, c1⟩, ⟨d, c2⟩, ⟨d, c3⟩]) = .ok (true, s') ∧
      GetGroups s' = [g] ∧ g.length = 3 ∧ g.Perm [⟨d, c1⟩, ⟨d, c2⟩, ⟨d, c3⟩] ∧
      GetRuns s' = [] := by
  have hperm := impl.perm [⟨d, c1⟩, ⟨d, c2⟩, ⟨d, c3⟩]
  have hlen := hperm.length_eq
  obtain ⟨x, y, z, ha⟩ : ∃ x y z, impl.sort [⟨d, c1⟩, ⟨d, c2⟩, ⟨d, c3⟩] = [x, y, z] := by
    match hm : impl.sort [⟨d, c1⟩, ⟨d, c2⟩, ⟨d, c3⟩] with
    | [] => rw [hm] at hlen; simp at hlen
    | [_] => rw [hm] at hlen; simp at hlen
    | [_, _] => rw [hm] at hlen; simp at hlen
    | [x, y, z] => exact ⟨x, y, z, rfl⟩
    | _ :: _ :: _ :: _ :: _ => rw [hm] at hlen; simp at hlen
  rw [ha] at hperm
  have hmem : ∀ u ∈ [x, y, z], u ∈ [(⟨d, c1⟩ : Tile), ⟨d, c2⟩, ⟨d, c3⟩] := fun u hu =>
    hperm.mem_iff.mp hu
  have hden : ∀ u ∈ [x, y, z], u.denomination = d := by
    intro u hu
    have := hmem u hu
    simp only [List.mem_cons, List.mem_singleton, List.not_mem_nil, or_false] at this
    rcases this with rfl | rfl | rfl <;> rfl
  have hnodup : (colors [x, y, z]).Nodup := by
    have hc : (colors [x, y, z]).Perm (colors [⟨d, c1⟩, ⟨d, c2⟩, ⟨d, c3⟩]) := hperm.map _
    refine hc.nodup_iff.mpr ?_
    simp [colors, h12, h13, h23]
  simp only [colors, List.map_cons, List.map_nil, List.nodup_cons, List.mem_cons,
    List.mem_singleton, List.not_mem_nil, or_false, not_or, List.nodup_nil, and_true,
    not_false_eq_true] at hnodup
  have hx := hden x (by simp)
  have hy := hden y (by simp)
  have hz := hden z (by simp)
  have hrec := SolveRec_three_of_a_kind [⟨d, c1⟩, ⟨d, c2⟩, ⟨d, c3⟩] x y z
    (hx.trans hy.symm) (hy.trans hz.symm) hnodup.1.1 hnodup.1.2 hnodup.2
    (inHand_of_mem _ _ (hmem x (by simp))) (inHand_of_mem _ _ (hmem y (by simp)))
    (inHand_of_mem _ _ (hmem z (by simp)))
  refine ⟨⟨[⟨d, c1⟩, ⟨d, c2⟩, ⟨d, c3⟩], [[z, y, x]], []⟩, [z, y, x], ?_, rfl, rfl, ?_, rfl⟩
  · simp only [Solve, load_eq, ha]
    have h4 : ([x, y, z] : List Tile).length + 1 = 4 := rfl
    rw [h4, hrec]
  · refine List.Perm.trans ?_ hperm
    exact (List.reverse_perm [x, y, z])

theorem C9_three_of_a_kind_witness :
    ((1 : Int) ≤ 5 ∧ (5 : Int) ≤ 13) ∧ Red ≠ Green ∧ Red ≠ Blue ∧ Green ≠ Blue ∧
    ∃ s' g, Solve stableSort (load [⟨5, Red⟩, ⟨5, Green⟩, ⟨5, Blue⟩]) = .ok (true, s') ∧
      GetGroups s' = [g] ∧ g.length = 3 ∧ g.Perm [⟨5, Red⟩, ⟨5, Green⟩, ⟨5, Blue⟩] ∧
      GetRuns s' = [] :=
  ⟨by decide, by decide, by decide, by decide,
   C9_three_of_a_kind stableSort 5 Red Green Blue (by decide) (by decide) (by decide)
     (by decide)⟩

/-- C10 (too-small hands): for every hand of exactly one or exactly two tiles,
the search run by `Solve` on a fresh solver returns `false`, and both
`GetGroups` and `GetRuns` are empty afterwards. -/
theorem C10_small_hand_rejected (impl : SortImpl) (hand : List Tile)
    (hlen : hand.length = 1 ∨ hand.length = 2) :
    ∃ s', Solve impl (load hand) = .ok (false, s') ∧ GetGroups s' = [] ∧ GetRuns s' = [] := by
  have hl := (impl.perm hand).length_eq
  refine ⟨⟨hand, [], []⟩, ?_, rfl, rfl⟩
  match hm : impl.sort hand with
  | [] => rw [hm] at hl; simp at hl; omega
  | [x] =>
    simp only [Solve, load_eq, hm]
    have h2 : ([x] : List Tile).length + 1 = 2 := rfl
    rw [h2, SolveRec_one]
  | [x, y] =>
    simp only [Solve, load_eq, hm]
    have h3 : ([x, y] : List Tile).length + 1 = 3 := rfl
    rw [h3, SolveRec_two]
  | _ :: _ :: _ :: _ => rw [hm] at hl; simp at hl; omega

theorem C10_small_hand_rejected_witness :
    (([⟨5, Red⟩, ⟨5, Red⟩] : List Tile).length = 1 ∨
      ([⟨5, Red⟩, ⟨5, Red⟩] : List Tile).length = 2) ∧
    ∃ s', Solve stableSort (load [⟨5, Red⟩, ⟨5, Red⟩]) = .ok (false, s') ∧
      GetGroups s' = [] ∧ GetRuns s' = [] :=
  ⟨Or.inr rfl, C10_small_hand_rejected stableSort [⟨5, Red⟩, ⟨5, Red⟩] (Or.inr rfl)⟩

/-! ## The candidate generator in order -/

theorem runOptions_eq (t : Tile) (rs : List (List Tile)) (i : Int) (a : List Action) :
    ∃ ks : List Nat,
      runOptions t rs i a = a ++ ks.map (fun (k : Nat) => (⟨t, i + (k : Int), Mode.EX_RUN⟩ : Action)) ∧
      ks.Pairwise (fun x y => x < y) ∧ ∀ k ∈ ks, k < rs.length := by
  induction rs generalizing i a with
  | nil => exact ⟨[], by simp [runOptions], List.Pairwise.nil, by simp⟩
  | cons r rs ih =>
    by_cases hv : isRunValid t r = true
    · obtain ⟨ks, h1, h2, h3⟩ := ih (i + 1) (a ++ [⟨t, i, Mode.EX_RUN⟩])
      refine ⟨0 :: ks.map (fun k => k + 1), ?_, ?_, ?_⟩
      · simp only [runOptions, hv, if_true, h1, List.map_cons, List.map_map, List.append_assoc,
          List.singleton_append, Nat.cast_zero, add_zero]
        congr 2
        apply List.map_congr_left
        intro k _
        simp only [Function.comp, Nat.cast_add, Nat.cast_one]
        congr 1
        ring
      · refine List.pairwise_cons.mpr ⟨?_, ?_⟩
        · intro k hk
          obtain ⟨k1, _, rfl⟩ := List.mem_map.mp hk
          omega
        · exact h2.map _ (fun x y hxy => by omega)
      · intro k hk
        rcases List.mem_cons.mp hk with rfl | hk
        · simp
        · obtain ⟨k1, hk1, rfl⟩ := List.mem_map.mp hk
          have := h3 k1 hk1
          simp only [List.length_cons]
          omega
    · obtain ⟨ks, h1, h2, h3⟩ := ih (i + 1) a
      refine ⟨ks.map (fun k => k + 1), ?_, ?_, ?_⟩
      · have hv1 : isRunValid t r = false := by simpa using hv
        simp only [runOptions, hv1, Bool.false_eq_true, if_false, h1, List.map_map]
        congr 1
        apply List.map_congr_left
        intro k _
        simp only [Function.comp, Nat.cast_add, Nat.cast_one]
        congr 1
        ring
      · exact h2.map _ (fun x y hxy => by omega)
      · intro k hk
        obtain ⟨k1, hk1, rfl⟩ := List.mem_map.mp hk
        have := h3 k1 hk1
        simp only [List.length_cons]
        omega

theorem groupOptions_eq (t : Tile) (gs : List (List Tile)) (i : Int) (a : List Action) :
    ∃ ks : List Nat,
      groupOptions t gs i a =
        a ++ ks.map (fun (k : Nat) => (⟨t, i + (k : Int), Mode.EX_GROUP⟩ : Action)) ∧
      ks.Pairwise (fun x y => x < y) ∧ ∀ k ∈ ks, k < gs.length := by
  induction gs generalizing i a with
  | nil => exact ⟨[], by simp [groupOptions], List.Pairwise.nil, by simp⟩
  | cons g gs ih =>
    by_cases hv : isGroupValid t g = true
    · obtain ⟨ks, h1, h2, h3⟩ := ih (i + 1) (a ++ [⟨t, i, Mode.EX_GROUP⟩])
      refine ⟨0 :: ks.map (fun k => k + 1), ?_, ?_, ?_⟩
      · simp only [groupOptions, hv, if_true, h1, List.map_cons, List.map_map,
          List.append_assoc, List.singleton_append, Nat.cast_zero, add_zero]
        congr 2
        apply List.map_congr_left
        intro k _
        simp only [Function.comp, Nat.cast_add, Nat.cast_one]
        congr 1
        ring
      · refine List.pairwise_cons.mpr ⟨?_, ?_⟩
        · intro k hk
          obtain ⟨k1, _, rfl⟩ := List.mem_map.mp hk
          omega
        · exact h2.map _ (fun x y hxy => by omega)
      · intro k hk
        rcases List.mem_cons.mp hk with rfl | hk
        · simp
        · obtain ⟨k1, hk1, rfl⟩ := List.mem_map.mp hk
          have := h3 k1 hk1
          simp only [List.length_cons]
          omega
    · obtain ⟨ks, h1, h2, h3⟩ := ih (i + 1) a
      refine ⟨ks.map (fun k => k + 1), ?_, ?_, ?_⟩
      · have hv1 : isGroupValid t g = false := by simpa using hv
        simp only [groupOptions, hv1, Bool.false_eq_true, if_false, h1, List.map_map]
        congr 1
        apply List.map_congr_left
        intro k _
        simp only [Function.comp, Nat.cast_add, Nat.cast_one]
        congr 1
        ring
      · exact h2.map _ (fun x y hxy => by omega)
      · intro k hk
        obtain ⟨k1, hk1, rfl⟩ := List.mem_map.mp hk
        have := h3 k1 hk1
        simp only [List.length_cons]
        omega

/-! ## Order of the tiles inside a run -/

/-- One placement of a tile that is not greater than any tile already in a
run keeps every run in strictly decreasing denomination order. -/
theorem Place_runs_descending (t : Tile) (s s1 : RummiKub) (h : Place t s s1)
    (hdesc : ∀ r ∈ s._runs, r.Pairwise fun a b => b.denomination < a.denomination)
    (hle : ∀ r ∈ s._runs, ∀ u ∈ r, t.denomination ≤ u.denomination) :
    (∀ r ∈ s1._runs, r.Pairwise fun a b => b.denomination < a.denomination) ∧
    (∀ r ∈ s1._runs, ∀ u ∈ r, u = t ∨ ∃ r0 ∈ s._runs, u ∈ r0) := by
  cases h with
  | addRun =>
    constructor
    · intro r hr
      rcases List.mem_append.mp hr with hr | hr
      · exact hdesc r hr
      · simp only [List.mem_singleton] at hr
        subst hr
        exact List.pairwise_singleton _ _
    · intro r hr u hu
      rcases List.mem_append.mp hr with hr | hr
      · exact Or.inr ⟨r, hr, hu⟩
      · simp only [List.mem_singleton] at hr
        subst hr
        exact Or.inl (List.mem_singleton.mp hu)
  | addGroup => exact ⟨hdesc, fun r hr u hu => Or.inr ⟨r, hr, hu⟩⟩
  | exRun k r0 h1 h2 =>
    have hr0 : r0 ∈ s._runs := mem_of_getElem?_eq h1
    have hv := (isRunValid_iff t r0).mp h2
    constructor
    · intro r hr
      rcases List.mem_or_eq_of_mem_set hr with hr | rfl
      · exact hdesc r hr
      · refine List.pairwise_append.mpr ⟨hdesc r0 hr0, List.pairwise_singleton _ _, ?_⟩
        intro u hu v hv1
        rw [List.mem_singleton.mp hv1]
        have h3 := hle r0 hr0 u hu
        have h4 := (hv u hu).1
        omega
    · intro r hr u hu
      rcases List.mem_or_eq_of_mem_set hr with hr | rfl
      · exact Or.inr ⟨r, hr, hu⟩
      · rcases List.mem_append.mp hu with hu | hu
        · exact Or.inr ⟨r0, hr0, hu⟩
        · exact Or.inl (List.mem_singleton.mp hu)
  | exGroup k g h1 h2 => exact ⟨hdesc, fun r hr u hu => Or.inr ⟨r, hr, hu⟩⟩

/-- Along the search on a working hand in non-decreasing denomination order,
every run stays in strictly decreasing denomination order. -/
theorem Reach_runs_descending (s s' : RummiKub) (hand : List Tile) (h : Reach s hand s')
    (hsorted : hand.Pairwise fun a b => a.denomination ≤ b.denomination)
    (hdesc : ∀ r ∈ s._runs, r.Pairwise fun a b => b.denomination < a.denomination)
    (hle : ∀ r ∈ s._runs, ∀ u ∈ r, ∀ v ∈ hand, v.denomination ≤ u.denomination) :
    ∀ r ∈ s'._runs, r.Pairwise fun a b => b.denomination < a.denomination := by
  induction h with
  | leaf => exact hdesc
  | step s s1 s2 hand t hp _ ih =>
    obtain ⟨hs1, -, hs3⟩ := List.pairwise_append.mp hsorted
    obtain ⟨hd1, hm1⟩ := Place_runs_descending t s s1 hp hdesc
      (fun r hr u hu => hle r hr u hu t (by simp))
    refine ih hs1 hd1 ?_
    intro r hr u hu v hv
    rcases hm1 r hr u hu with rfl | ⟨r0, hr0, hu0⟩
    · exact hs3 v hv u (by simp)
    · exact hle r0 hr0 u hu0 v (List.mem_append_left _ hv)

/-! ## The membership checks of `isLegal` -/

theorem inHand_iff (hand : List Tile) (t : Tile) :
    inHand hand t = true ↔
      ∃ u ∈ hand, t.denomination = u.denomination ∧ t.color = u.color := by
  simp only [inHand, List.any_eq_true, Bool.and_eq_true, beq_iff_eq]
  constructor
  · rintro ⟨u, hu, h1, h2⟩
    exact ⟨u, hu, h2, h1⟩
  · rintro ⟨u, hu, h1, h2⟩
    exact ⟨u, hu, h2, h1⟩

theorem checkGroup_eq_NoHand (hand g ts : List Tile) (h : ∀ t ∈ ts, inHand hand t = true) :
    checkGroup hand g ts = checkGroupNoHand g ts := by
  induction ts with
  | nil => rfl
  | cons t ts ih =>
    have ht := h t (List.mem_cons_self _ _)
    simp only [checkGroup, checkGroupNoHand, ht, Bool.not_true, Bool.false_eq_true, if_false]
    rw [ih (fun u hu => h u (List.mem_cons_of_mem _ hu))]

theorem checkGroups_eq_NoHand (hand : List Tile) (gs : List (List Tile))
    (h : ∀ g ∈ gs, ∀ t ∈ g, inHand hand t = true) :
    checkGroups hand gs = checkGroupsNoHand gs := by
  induction gs with
  | nil => rfl
  | cons g gs ih =>
    simp only [checkGroups, checkGroupsNoHand]
    rw [checkGroup_eq_NoHand hand g g (h g (List.mem_cons_self _ _)),
      ih (fun g1 hg1 => h g1 (List.mem_cons_of_mem _ hg1))]

theorem checkRunHand_true (hand r : List Tile) (h : ∀ t ∈ r, inHand hand t = true) :
    checkRunHand hand r = true := by
  induction r with
  | nil => rfl
  | cons t ts ih =>
    have ht := h t (List.mem_cons_self _ _)
    simp only [checkRunHand, ht, Bool.not_true, Bool.false_eq_true, if_false]
    exact ih (fun u hu => h u (List.mem_cons_of_mem _ hu))

theorem checkRun_eq_NoHand (hand : List Tile) (correct : Bool) (r : List Tile)
    (h : ∀ t ∈ r, inHand hand t = true) :
    checkRun hand correct r = checkRunNoHand correct r := by
  simp only [checkRun, checkRunNoHand, checkRunHand_true hand r h, Bool.not_true,
    Bool.false_eq_true, if_false]

theorem checkRuns_eq_NoHand (hand : List Tile) (correct : Bool) (rs : List (List Tile))
    (h : ∀ r ∈ rs, ∀ t ∈ r, inHand hand t = true) :
    checkRuns hand correct rs = checkRunsNoHand correct rs := by
  induction rs with
  | nil => rfl
  | cons r rs ih =>
    simp only [checkRuns, checkRunsNoHand]
    rw [checkRun_eq_NoHand hand correct r (h r (List.mem_cons_self _ _)),
      ih (fun r1 hr1 => h r1 (List.mem_cons_of_mem _ hr1))]

/-- On a partition whose tiles all occur in the hand, `isLegal` and the
validator without the membership checks return the same result. -/
theorem isLegal_eq_NoHand (s : RummiKub) (h : ∀ t ∈ placedTiles s, inHand s._hand t = true) :
    isLegal s = isLegalNoHand s := by
  have hr : ∀ r ∈ s._runs, ∀ t ∈ r, inHand s._hand t = true := fun r hr t ht =>
    h t (List.mem_append_left _ (List.mem_flatten.mpr ⟨r, hr, ht⟩))
  have hg : ∀ g ∈ s._groups, ∀ t ∈ g, inHand s._hand t = true := fun g hg t ht =>
    h t (List.mem_append_right _ (List.mem_flatten.mpr ⟨g, hg, ht⟩))
  simp only [isLegal, isLegalNoHand, checkGroups_eq_NoHand _ _ hg, checkRuns_eq_NoHand _ _ _ hr]

/-- The loop over the actions gives the same result for two recursive calls
that agree after every placement, when the first restores solver and hand
whenever it returns `false`. -/
theorem tryActions_congr (rec rec' : RummiKub → List Tile → Result) (tile : Tile)
    (aSize : Nat) (haSize : aSize ≠ 0) (s : RummiKub) (hand : List Tile)
    (hrec : ∀ s1 s2 hand2, rec s1 hand = .ok (false, s2, hand2) → s2 = s1 ∧ hand2 = hand)
    (hagree : ∀ s1, Place tile s s1 → rec' s1 hand = rec s1 hand)
    (as : List Action)
    (has : ∀ x ∈ as, ∃ s1, applyAction s x = .ok s1 ∧ undoAction s1 x = .ok s ∧ Place tile s s1) :
    tryActions rec' tile aSize as s hand = tryActions rec tile aSize as s hand := by
  induction as with
  | nil => rfl
  | cons x rest ih =>
    obtain ⟨s1, ha, hu, hp⟩ := has x (List.mem_cons_self _ _)
    simp only [tryActions, haSize, ne_eq, not_false_eq_true, if_true, ha, hagree s1 hp]
    cases hr : rec s1 hand with
    | error e => rfl
    | ok res =>
      obtain ⟨b1, s2, hand2⟩ := res
      cases b1 with
      | true => rfl
      | false =>
        obtain ⟨rfl, rfl⟩ := hrec s1 s2 hand2 hr
        simp only [hu]
        exact ih (fun y hy => has y (List.mem_cons_of_mem _ hy))

theorem Place_placed_mem (t : Tile) (s s1 : RummiKub) (h : Place t s s1) (u : Tile)
    (hu : u ∈ placedTiles s1) : u = t ∨ u ∈ placedTiles s := by
  have := (Place_tiles t s s1 h).mem_iff.mp hu
  exact List.mem_cons.mp this

/-- The two searches agree on every state whose placed tiles and working hand
all occur in the stored hand. -/
theorem SolveRecNoHand_eq (fuel : Nat) (s : RummiKub) (hand : List Tile)
    (h : ∀ t ∈ placedTiles s ++ hand, inHand s._hand t = true) :
    SolveRecNoHand fuel s hand = SolveRec fuel s hand := by
  induction fuel generalizing s hand with
  | zero => rfl
  | succ fuel ih =>
    rcases List.eq_nil_or_concat hand with rfl | ⟨init, t, rfl⟩
    all_goals try rw [List.concat_eq_append] at *
    · simp only [SolveRecNoHand, SolveRec, List.getLast?_nil]
      rw [isLegal_eq_NoHand s (fun u hu => h u (by simpa using hu))]
    · simp only [SolveRecNoHand, SolveRec, List.getLast?_concat, List.dropLast_concat]
      refine tryActions_congr (fun s1 h1 => SolveRec fuel s1 h1)
        (fun s1 h1 => SolveRecNoHand fuel s1 h1) t (GetOptions s t).length
        (GetOptions_length_pos s t) s init
        (fun s1 s2 hand2 hr => (SolveRec_spec fuel s1 init false s2 hand2 hr).1 rfl)
        ?_ (GetOptions s t) (fun x hx => GetOptions_step s t x hx)
      intro s1 hp
      refine ih s1 init ?_
      intro u hu
      rw [Place_hand t s s1 hp]
      rcases List.mem_append.mp hu with hu | hu
      · rcases Place_placed_mem t s s1 hp u hu with rfl | hu
        · exact h u (by simp)
        · exact h u (List.mem_append_left _ hu)
      · exact h u (List.mem_append_right _ (List.mem_append_left _ hu))

/-! ## What `isLegal` accepts: runs with denominations in the array -/

/-- The counting loop stays inside the array and does not return `false` when
every tile has the expected color and a denomination in `0..12`. -/
theorem countRun_ok (color : Color) (ts : List Tile) (counts : List Nat)
    (h : ∀ t ∈ ts, t.color = color ∧ 0 ≤ t.denomination ∧ t.denomination < 13) :
    ∃ counts', countRun color ts counts = .ok (some counts') := by
  induction ts generalizing counts with
  | nil => exact ⟨counts, rfl⟩
  | cons t ts ih =>
    obtain ⟨hc, hb⟩ := h t (List.mem_cons_self _ _)
    simp only [countRun, hc, bne_self_eq_false, Bool.false_eq_true, if_false, hb, and_self,
      if_true]
    exact ih _ (fun u hu => h u (List.mem_cons_of_mem _ hu))

/-- The counting loop never leaves the array on denominations `0..12`. -/
theorem countRun_in_bounds (color : Color) (ts : List Tile) (counts : List Nat)
    (h : ∀ t ∈ ts, 0 ≤ t.denomination ∧ t.denomination < 13) (e : Fault) :
    countRun color ts counts ≠ .error e := by
  induction ts generalizing counts with
  | nil => simp [countRun]
  | cons t ts ih =>
    have hb := h t (List.mem_cons_self _ _)
    simp only [countRun]
    by_cases hc : t.color = color
    · simp only [hc, bne_self_eq_false, Bool.false_eq_true, if_false, hb, and_self, if_true]
      exact ih _ (fun u hu => h u (List.mem_cons_of_mem _ hu))
    · have hne : (t.color != color) = true := by simpa using hc
      simp [hne]

/-- The scan does not return `false` when every maximal block of occupied
slots, counted together with the incoming `len` when it starts at the first
slot, has length at least 3; the final `len` is then 0 or at least 3, and it
is not 0 when the last slot is occupied. -/
theorem scanBlocks_complete (cs : List Nat) (l0 : Nat)
    (hinner : ∀ i j, 0 < i → i ≤ j → j < cs.length →
      (∀ k, i ≤ k → k ≤ j → cs.getD k 0 ≠ 0) → cs.getD (i - 1) 0 = 0 →
      cs.getD (j + 1) 0 = 0 → 3 ≤ j + 1 - i)
    (hhead : ∀ j, j < cs.length → (∀ k, k ≤ j → cs.getD k 0 ≠ 0) →
      cs.getD (j + 1) 0 = 0 → 3 ≤ j + 1 + l0)
    (hstart : cs.getD 0 0 = 0 → l0 = 0 ∨ 3 ≤ l0) :
    ∃ l, scanBlocks cs l0 = some l ∧ (l = 0 ∨ 3 ≤ l) ∧
      ∀ n, cs.length = n + 1 → cs.getD n 0 ≠ 0 → l ≠ 0 := by
  induction cs generalizing l0 with
  | nil =>
    refine ⟨l0, rfl, hstart (by simp), ?_⟩
    intro n hn
    simp at hn
  | cons b bs ih =>
    have hinner1 : ∀ i j, 0 < i → i ≤ j → j < bs.length →
        (∀ k, i ≤ k → k ≤ j → bs.getD k 0 ≠ 0) → bs.getD (i - 1) 0 = 0 →
        bs.getD (j + 1) 0 = 0 → 3 ≤ j + 1 - i := by
      intro i j hi hij hj hblk hlo hhi
      have := hinner (i + 1) (j + 1) (by omega) (by omega) (by simpa using hj)
        (fun k hk1 hk2 => by
          obtain ⟨k1, rfl⟩ : ∃ k1, k = k1 + 1 := ⟨k - 1, by omega⟩
          simpa using hblk k1 (by omega) (by omega))
        (by
          obtain ⟨i1, rfl⟩ : ∃ i1, i = i1 + 1 := ⟨i - 1, by omega⟩
          simpa using hlo)
        (by simpa using hhi)
      omega
    rw [scanBlocks_cons]
    by_cases hb : b = 0
    · have hl0 : l0 = 0 ∨ 3 ≤ l0 := hstart (by simpa using hb)
      have hnot : ¬ (0 < l0 ∧ l0 < 3) := by omega
      simp only [hb, ne_eq, not_true_eq_false, if_false, hnot]
      obtain ⟨l, h1, h2, h3⟩ := ih 0 hinner1
        (fun j hj hblk hhi => by
          have := hinner 1 (j + 1) (by omega) (by omega) (by simpa using hj)
            (fun k hk1 hk2 => by
              obtain ⟨k1, rfl⟩ : ∃ k1, k = k1 + 1 := ⟨k - 1, by omega⟩
              simpa using hblk k1 (by omega))
            (by simpa using hb) (by simpa using hhi)
          omega)
        (fun _ => Or.inl rfl)
      refine ⟨l, h1, h2, ?_⟩
      intro n hn hne
      cases n with
      | zero => simp [hb] at hne
      | succ m => exact h3 m (by simpa using hn) (by simpa using hne)
    · simp only [hb, ne_eq, not_false_eq_true, if_true]
      obtain ⟨l, h1, h2, h3⟩ := ih (l0 + 1) hinner1
        (fun j hj hblk hhi => by
          have := hhead (j + 1) (by simpa using hj)
            (fun k hk => by
              cases k with
              | zero => simpa using hb
              | succ k1 => simpa using hblk k1 (by omega))
            (by simpa using hhi)
          omega)
        (fun hz => by
          have := hhead 0 (by simp) (fun k hk => by
            have : k = 0 := by omega
            subst this
            simpa using hb) (by simpa using hz)
          omega)
      refine ⟨l, h1, h2, ?_⟩
      intro n hn hne
      cases n with
      | zero =>
        have hbs : bs = [] := by
          cases bs with
          | nil => rfl
          | cons c cs => simp at hn
        subst hbs
        simp only [scanBlocks, Option.some.injEq] at h1
        omega
      | succ m => exact h3 m (by simpa using hn) (by simpa using hne)

/-- A run that satisfies the run invariant, whose tiles occur in the hand and
have denominations in `0..12`, passes the body of the loop over `_runs`. -/
theorem checkRun_complete (hand r : List Tile) (hinv : RunInvariant r)
    (hmem : ∀ t ∈ r, inHand hand t = true)
    (hden : ∀ t ∈ r, 0 ≤ t.denomination ∧ t.denomination < 13) :
    checkRun hand true r = .ok true := by
  obtain ⟨hlen, hcolor, hnodup, hblocks⟩ := hinv
  cases r with
  | nil => simp at hlen
  | cons t0 ts =>
    obtain ⟨counts, hcount⟩ := countRun_ok t0.color (t0 :: ts) (List.replicate 13 0)
      (fun t ht => ⟨hcolor t ht t0 (List.mem_cons_self _ _), hden t ht⟩)
    obtain ⟨hclen, -, hcounts⟩ :=
      countRun_spec t0.color (t0 :: ts) (List.replicate 13 0) counts (by simp) hcount
    have hslot : ∀ k : Nat, counts.getD k 0 =
        (t0 :: ts).countP (fun t => decide (t.denomination = (k : Int))) := by
      intro k
      rw [hcounts k]
      have : (List.replicate 13 0).getD k 0 = 0 := by
        simp only [List.getD_eq_getElem?_getD, List.getElem?_replicate]
        split <;> rfl
      omega
    have hpresent : ∀ k : Nat, (k : Int) ∈ denominations (t0 :: ts) ↔ counts.getD k 0 ≠ 0 := by
      intro k
      rw [mem_denominations, hslot k]
      omega
    have hrange : ∀ d, d ∈ denominations (t0 :: ts) → 0 ≤ d ∧ d < 13 := by
      intro d hd
      simp only [denominations, List.mem_map] at hd
      obtain ⟨t, ht, rfl⟩ := hd
      exact hden t ht
    have hle : ∀ c ∈ counts, c ≤ 1 := by
      intro c hc
      obtain ⟨k, hk, rfl⟩ := List.getElem_of_mem hc
      have h1 : counts.getD k 0 ≤ 1 := by
        rw [hslot, ← count_denominations]
        exact List.nodup_iff_count_le_one.mp hnodup _
      rwa [List.getD_eq_getElem _ _ hk] at h1
    have hany : (counts.any fun c => decide (c > 1)) = false := by
      rw [List.any_eq_false]
      intro c hc
      have := hle c hc
      simp only [gt_iff_lt, decide_eq_true_eq, not_lt]
      exact this
    have hblock : ∀ i j : Nat, i ≤ j → (∀ k, i ≤ k → k ≤ j → counts.getD k 0 ≠ 0) →
        (0 < i → counts.getD (i - 1) 0 = 0) → counts.getD (j + 1) 0 = 0 → 3 ≤ j + 1 - i := by
      intro i j hij hblk hlo hhi
      have h1 := hblocks (i : Int) (j : Int) (by omega)
        (fun d hd1 hd2 => by
          obtain ⟨k, rfl⟩ := Int.eq_ofNat_of_zero_le (by omega : 0 ≤ d)
          exact (hpresent k).mpr (hblk k (by omega) (by omega)))
        (fun hmem1 => by
          rcases Nat.eq_zero_or_pos i with rfl | hi
          · have := (hrange _ hmem1).1
            omega
          · have hc : (i : Int) - 1 = ((i - 1 : Nat) : Int) := by omega
            rw [hc] at hmem1
            exact (hpresent (i - 1)).mp hmem1 (hlo hi))
        (fun hmem1 => by
          have hc : (j : Int) + 1 = ((j + 1 : Nat) : Int) := by omega
          rw [hc] at hmem1
          exact (hpresent (j + 1)).mp hmem1 hhi)
      omega
    obtain ⟨len, hscan, hlen3, hlast⟩ := scanBlocks_complete counts 0
      (fun i j hi hij _ hblk hlo hhi => hblock i j hij hblk (fun _ => hlo) hhi)
      (fun j _ hblk hhi => by
        have := hblock 0 j (Nat.zero_le _) (fun k _ hk => hblk k hk) (fun h0 => by omega) hhi
        omega)
      (fun _ => Or.inl rfl)
    have hfinal : ¬ (counts.getD 12 0 ≠ 0 ∧ len < 3) := by
      rintro ⟨h12, hl⟩
      have := hlast 12 (by omega) h12
      omega
    have hlen3' : ¬ (t0 :: ts).length < 3 := by omega
    simp only [checkRun, hlen3', if_false, checkRunHand_true hand (t0 :: ts) hmem, Bool.not_true,
      Bool.false_eq_true, hcount, hany, if_true, hscan, hfinal]

theorem checkRuns_complete (hand : List Tile) (rs : List (List Tile))
    (h : ∀ r ∈ rs, checkRun hand true r = .ok true) : checkRuns hand true rs = .ok true := by
  induction rs with
  | nil => rfl
  | cons r rs ih =>
    simp only [checkRuns, h r (List.mem_cons_self _ _)]
    exact ih (fun r1 hr1 => h r1 (List.mem_cons_of_mem _ hr1))

/-- The validator on a partition without groups whose runs are made of tiles of
the hand with denominations in `0..12`: it returns `true` exactly when every
run satisfies the run invariant. -/
theorem isLegal_runs_iff (hand : List Tile) (runs : List (List Tile))
    (hmem : ∀ r ∈ runs, ∀ t ∈ r, t ∈ hand)
    (hden : ∀ r ∈ runs, ∀ t ∈ r, 0 ≤ t.denomination ∧ t.denomination ≤ 12) :
    isLegal ⟨hand, [], runs⟩ = .ok true ↔ ∀ r ∈ runs, RunInvariant r := by
  constructor
  · intro h
    exact (isLegal_true _ h).1
  · intro h
    simp only [isLegal, checkGroups, Bool.not_true, Bool.false_eq_true, if_false]
    refine checkRuns_complete hand runs (fun r hr => ?_)
    refine checkRun_complete hand r (h r hr) (fun t ht => inHand_of_mem _ _ (hmem r hr t ht)) ?_
    intro t ht
    have := hden r hr t ht
    omega

theorem RunInvariant_13_12_11 :
    RunInvariant [⟨13, Color.Red⟩, ⟨12, Color.Red⟩, ⟨11, Color.Red⟩] := by
  refine ⟨by simp, ?_, by decide, ?_⟩
  · intro t ht u hu
    simp only [List.mem_cons, List.mem_singleton, List.not_mem_nil, or_false] at ht hu
    rcases ht with rfl | rfl | rfl <;> rcases hu with rfl | rfl | rfl <;> rfl
  · intro lo hi hle hblk hbelow habove
    have h1 := hblk lo (le_refl _) hle
    have h2 := hblk hi hle (le_refl _)
    simp only [denominations, List.map_cons, List.map_nil, List.mem_cons, List.mem_singleton,
      List.not_mem_nil, or_false, not_or] at h1 h2 hbelow habove
    omega

/-! ## The claims C11 to C20 -/

/-- C11 (the hand is left untouched): for every solver state, the stored hand
after `Solve` is the hand before `Solve`, element for element and in the same
order, whether the search returns `true` or `false`. -/
theorem C11_hand_untouched (impl : SortImpl) (s : RummiKub) (b : Bool) (s' : RummiKub)
    (h : Solve impl s = .ok (b, s')) : s'._hand = s._hand := by
  cases b with
  | false => rw [Solve_false impl s s' h]
  | true => exact Reach_hand _ _ _ (Solve_true impl s s' h).1

theorem C11_hand_untouched_witness :
    Solve stableSort ⟨[⟨3, Red⟩, ⟨1, Red⟩, ⟨2, Red⟩], [], []⟩ =
      .ok (true, ⟨[⟨3, Red⟩, ⟨1, Red⟩, ⟨2, Red⟩], [], [[⟨3, Red⟩, ⟨2, Red⟩, ⟨1, Red⟩]]⟩) ∧
    (⟨[⟨3, Red⟩, ⟨1, Red⟩, ⟨2, Red⟩], [], [[⟨3, Red⟩, ⟨2, Red⟩, ⟨1, Red⟩]]⟩ : RummiKub)._hand =
      (⟨[⟨3, Red⟩, ⟨1, Red⟩, ⟨2, Red⟩], [], []⟩ : RummiKub)._hand :=
  ⟨rfl, C11_hand_untouched stableSort ⟨[⟨3, Red⟩, ⟨1, Red⟩, ⟨2, Red⟩], [], []⟩ true _ rfl⟩

/-- C14 (a failed search restores its state): for every partition state and
every working hand, if `SolveRec` returns `false` then the runs, the groups and
the working hand are what they were when `SolveRec` was called. -/
theorem C14_failed_search_restores (fuel : Nat) (s : RummiKub) (hand : List Tile)
    (s' : RummiKub) (hand' : List Tile)
    (h : SolveRec fuel s hand = .ok (false, s', hand')) :
    s'._runs = s._runs ∧ s'._groups = s._groups ∧ hand' = hand := by
  obtain ⟨hs, hh⟩ := (SolveRec_spec fuel s hand false s' hand' h).1 rfl
  rw [hs, hh]
  exact ⟨rfl, rfl, rfl⟩

theorem C14_failed_search_restores_witness :
    SolveRec 3 ⟨[⟨1, Red⟩, ⟨2, Red⟩], [[⟨7, Blue⟩]], [[⟨3, Red⟩]]⟩ [⟨1, Red⟩, ⟨2, Red⟩] =
      .ok (false, ⟨[⟨1, Red⟩, ⟨2, Red⟩], [[⟨7, Blue⟩]], [[⟨3, Red⟩]]⟩, [⟨1, Red⟩, ⟨2, Red⟩]) ∧
    (⟨[⟨1, Red⟩, ⟨2, Red⟩], [[⟨7, Blue⟩]], [[⟨3, Red⟩]]⟩ : RummiKub)._runs =
      (⟨[⟨1, Red⟩, ⟨2, Red⟩], [[⟨7, Blue⟩]], [[⟨3, Red⟩]]⟩ : RummiKub)._runs ∧
    (⟨[⟨1, Red⟩, ⟨2, Red⟩], [[⟨7, Blue⟩]], [[⟨3, Red⟩]]⟩ : RummiKub)._groups =
      (⟨[⟨1, Red⟩, ⟨2, Red⟩], [[⟨7, Blue⟩]], [[⟨3, Red⟩]]⟩ : RummiKub)._groups ∧
    ([⟨1, Red⟩, ⟨2, Red⟩] : List Tile) = [⟨1, Red⟩, ⟨2, Red⟩] :=
  ⟨rfl, C14_failed_search_restores 3 ⟨[⟨1, Red⟩, ⟨2, Red⟩], [[⟨7, Blue⟩]], [[⟨3, Red⟩]]⟩
    [⟨1, Red⟩, ⟨2, Red⟩] _ _ rfl⟩

/-- C15 (run extension): for every tile `t`, every partition state and every
run index `i`, `GetOptions t` holds an `EX_RUN` action with index `i` if and
only if every tile of run `i` has the color of `t` and no tile of run `i` has
the denomination of `t`; nothing is asked about contiguity. -/
theorem C15_run_extension (s : RummiKub) (t : Tile) (i : Nat) (hi : i < s._runs.length) :
    (∃ x ∈ GetOptions s t, x._mode = Mode.EX_RUN ∧ x.index = (i : Int)) ↔
      ((∀ u ∈ s._runs[i], u.color = t.color) ∧
        (∀ u ∈ s._runs[i], u.denomination ≠ t.denomination)) := by
  have hget : s._runs[i]? = some s._runs[i] := List.getElem?_eq_getElem hi
  constructor
  · rintro ⟨x, hx, hm, hidx⟩
    rcases (mem_GetOptions s t x).mp hx with ⟨k, r, h1, h2, rfl⟩ | ⟨k, g, h1, h2, rfl⟩ |
      rfl | rfl
    · simp only [Nat.cast_inj] at hidx
      subst hidx
      rw [hget] at h1
      simp only [Option.some.injEq] at h1
      have hv := (isRunValid_iff t r).mp h2
      rw [h1]
      exact ⟨fun u hu => ((hv u hu).2).symm, fun u hu heq => (hv u hu).1 heq.symm⟩
    · simp at hm
    · simp at hm
    · simp at hm
  · rintro ⟨hc, hd⟩
    refine ⟨⟨t, i, Mode.EX_RUN⟩, ?_, rfl, rfl⟩
    refine (mem_GetOptions s t _).mpr (Or.inl ⟨i, s._runs[i], hget, ?_, rfl⟩)
    exact (isRunValid_iff t _).mpr
      (fun u hu => ⟨fun heq => hd u hu heq.symm, (hc u hu).symm⟩)

theorem C15_run_extension_witness :
    (1 < (⟨[], [], [[⟨7, Blue⟩], [⟨9, Red⟩, ⟨8, Red⟩]]⟩ : RummiKub)._runs.length) ∧
    ((∃ x ∈ GetOptions ⟨[], [], [[⟨7, Blue⟩], [⟨9, Red⟩, ⟨8, Red⟩]]⟩ ⟨2, Red⟩,
        x._mode = Mode.EX_RUN ∧ x.index = ((1 : Nat) : Int)) ↔
      ((∀ u ∈ ([[⟨7, Blue⟩], [⟨9, Red⟩, ⟨8, Red⟩]] : List (List Tile))[1], u.color = Red) ∧
        (∀ u ∈ ([[⟨7, Blue⟩], [⟨9, Red⟩, ⟨8, Red⟩]] : List (List Tile))[1],
          u.denomination ≠ 2))) :=
  ⟨by decide,
   C15_run_extension ⟨[], [], [[⟨7, Blue⟩], [⟨9, Red⟩, ⟨8, Red⟩]]⟩ ⟨2, Red⟩ 1 (by decide)⟩

/-- C16 (group extension): for every tile `t`, every partition state and every
group index `j`, `GetOptions t` holds an `EX_GROUP` action with index `j` if and
only if every tile of group `j` has a color different from the color of `t` and
every tile of group `j` has the denomination of `t`. -/
theorem C16_group_extension (s : RummiKub) (t : Tile) (j : Nat) (hj : j < s._groups.length) :
    (∃ x ∈ GetOptions s t, x._mode = Mode.EX_GROUP ∧ x.index = (j : Int)) ↔
      ((∀ u ∈ s._groups[j], u.color ≠ t.color) ∧
        (∀ u ∈ s._groups[j], u.denomination = t.denomination)) := by
  have hget : s._groups[j]? = some s._groups[j] := List.getElem?_eq_getElem hj
  constructor
  · rintro ⟨x, hx, hm, hidx⟩
    rcases (mem_GetOptions s t x).mp hx with ⟨k, r, h1, h2, rfl⟩ | ⟨k, g, h1, h2, rfl⟩ |
      rfl | rfl
    · simp at hm
    · simp only [Nat.cast_inj] at hidx
      subst hidx
      rw [hget] at h1
      simp only [Option.some.injEq] at h1
      have hv := (isGroupValid_iff t g).mp h2
      rw [h1]
      exact ⟨fun u hu heq => (hv u hu).1 heq.symm, fun u hu => ((hv u hu).2).symm⟩
    · simp at hm
    · simp at hm
  · rintro ⟨hc, hd⟩
    refine ⟨⟨t, j, Mode.EX_GROUP⟩, ?_, rfl, rfl⟩
    refine (mem_GetOptions s t _).mpr (Or.inr (Or.inl ⟨j, s._groups[j], hget, ?_, rfl⟩))
    exact (isGroupValid_iff t _).mpr
      (fun u hu => ⟨fun heq => hc u hu heq.symm, (hd u hu).symm⟩)

theorem C16_group_extension_witness :
    (0 < (⟨[], [[⟨7, Blue⟩, ⟨7, Green⟩]], []⟩ : RummiKub)._groups.length) ∧
    ((∃ x ∈ GetOptions ⟨[], [[⟨7, Blue⟩, ⟨7, Green⟩]], []⟩ ⟨7, Red⟩,
        x._mode = Mode.EX_GROUP ∧ x.index = ((0 : Nat) : Int)) ↔
      ((∀ u ∈ ([[⟨7, Blue⟩, ⟨7, Green⟩]] : List (List Tile))[0], u.color ≠ Red) ∧
        (∀ u ∈ ([[⟨7, Blue⟩, ⟨7, Green⟩]] : List (List Tile))[0], u.denomination = 7))) :=
  ⟨by decide, C16_group_extension ⟨[], [[⟨7, Blue⟩, ⟨7, Green⟩]], []⟩ ⟨7, Red⟩ 0 (by decide)⟩

/-- C17 (order and unconditional starts): for every tile `t` and partition
state, `GetOptions t` is the `EX_RUN` actions in strictly increasing run index,
then the `EX_GROUP` actions in strictly increasing group index, then one
`ADD_RUN` action, then one `ADD_GROUP` action as the last element; every action
carries `t`, and the list has at least two elements. -/
theorem C17_options_order (s : RummiKub) (t : Tile) :
    ∃ ri gi : List Nat,
      GetOptions s t =
        ri.map (fun (i : Nat) => (⟨t, (i : Int), Mode.EX_RUN⟩ : Action)) ++
        gi.map (fun (j : Nat) => (⟨t, (j : Int), Mode.EX_GROUP⟩ : Action)) ++
        [⟨t, -1, Mode.ADD_RUN⟩, ⟨t, -1, Mode.ADD_GROUP⟩] ∧
      ri.Pairwise (fun x y => x < y) ∧ gi.Pairwise (fun x y => x < y) ∧
      (∀ i ∈ ri, i < s._runs.length) ∧ (∀ j ∈ gi, j < s._groups.length) ∧
      (∀ x ∈ GetOptions s t, x._tile = t) ∧ 2 ≤ (GetOptions s t).length := by
  obtain ⟨ri, hr1, hr2, hr3⟩ := runOptions_eq t s._runs 0 []
  obtain ⟨gi, hg1, hg2, hg3⟩ := groupOptions_eq t s._groups 0 (runOptions t s._runs 0 [])
  have heq : GetOptions s t =
      ri.map (fun (i : Nat) => (⟨t, (i : Int), Mode.EX_RUN⟩ : Action)) ++
      gi.map (fun (j : Nat) => (⟨t, (j : Int), Mode.EX_GROUP⟩ : Action)) ++
      [⟨t, -1, Mode.ADD_RUN⟩, ⟨t, -1, Mode.ADD_GROUP⟩] := by
    simp only [GetOptions]
    rw [hg1, hr1]
    simp only [List.nil_append, zero_add, List.append_assoc, List.singleton_append]
  refine ⟨ri, gi, heq, hr2, hg2, hr3, hg3, ?_, ?_⟩
  · intro x hx
    rw [heq] at hx
    simp only [List.mem_append, List.mem_map, List.mem_cons, List.mem_singleton,
      List.not_mem_nil, or_false] at hx
    rcases hx with (⟨i, _, rfl⟩ | ⟨j, _, rfl⟩) | rfl | rfl <;> rfl
  · rw [heq]
    simp only [List.length_append, List.length_map, List.length_cons, List.length_nil]
    omega

/-- C20 (stored order of a run): for every hand loaded into a fresh solver,
after a `Solve` whose search returned `true` the tiles of every run of
`GetRuns` are in strictly decreasing denomination order. -/
theorem C20_runs_descending (impl : SortImpl) (hand : List Tile) (s' : RummiKub)
    (h : Solve impl (load hand) = .ok (true, s')) :
    ∀ r ∈ GetRuns s', r.Pairwise fun a b => b.denomination < a.denomination := by
  have hreach := (Solve_true impl (load hand) s' h).1
  have hsorted : (impl.sort (load hand)._hand).Pairwise
      fun a b => a.denomination ≤ b.denomination := by
    refine (impl.sorted _).imp ?_
    intro a b hab
    simpa [TileComp] using hab
  refine Reach_runs_descending _ _ _ hreach hsorted ?_ ?_
  · intro r hr
    rw [load_eq] at hr
    exact absurd hr (List.not_mem_nil r)
  · intro r hr
    rw [load_eq] at hr
    exact absurd hr (List.not_mem_nil r)

theorem C20_runs_descending_witness :
    Solve stableSort (load [⟨1, Red⟩, ⟨2, Red⟩, ⟨3, Red⟩]) =
      .ok (true, ⟨[⟨1, Red⟩, ⟨2, Red⟩, ⟨3, Red⟩], [], [[⟨3, Red⟩, ⟨2, Red⟩, ⟨1, Red⟩]]⟩) ∧
    ∀ r ∈ GetRuns ⟨[⟨1, Red⟩, ⟨2, Red⟩, ⟨3, Red⟩], [], [[⟨3, Red⟩, ⟨2, Red⟩, ⟨1, Red⟩]]⟩,
      r.Pairwise fun a b => b.denomination < a.denomination :=
  ⟨rfl, C20_runs_descending stableSort [⟨1, Red⟩, ⟨2, Red⟩, ⟨3, Red⟩] _ rfl⟩

/-- C19 (the membership check is redundant): for every hand loaded into a fresh
solver, at every leaf of the search every tile of a run or group is equal by
denomination and color to a tile of the hand, `isLegal` returns there what the
validator without the two membership checks returns, and `Solve` with either
validator gives the same outcome and the same runs and groups. -/
theorem C19_membership_redundant (impl : SortImpl) (hand : List Tile) :
    (∀ leaf, Reach (load hand) (impl.sort hand) leaf →
      (∀ t ∈ leaf._runs.flatten ++ leaf._groups.flatten,
        ∃ u ∈ hand, t.denomination = u.denomination ∧ t.color = u.color) ∧
      isLegal leaf = isLegalNoHand leaf) ∧
    SolveNoHand impl (load hand) = Solve impl (load hand) := by
  constructor
  · intro leaf hreach
    have hmem : ∀ t ∈ placedTiles leaf, t ∈ hand := by
      intro t ht
      have hp := Reach_tiles _ _ _ hreach
      rw [placedTiles_load] at hp
      exact (impl.perm hand).mem_iff.mp (hp.mem_iff.mp ht)
    have hhand : leaf._hand = hand := by
      rw [Reach_hand _ _ _ hreach, load_eq]
    refine ⟨fun t ht => ⟨t, hmem t ht, rfl, rfl⟩, isLegal_eq_NoHand leaf ?_⟩
    intro t ht
    rw [hhand]
    exact inHand_of_mem _ _ (hmem t ht)
  · simp only [SolveNoHand, Solve]
    rw [SolveRecNoHand_eq]
    intro t ht
    rw [placedTiles_load] at ht
    simp only [load_eq, List.nil_append] at ht ⊢
    exact inHand_of_mem _ _ ((impl.perm hand).mem_iff.mp ht)

/-- C12, evaluated at the failing input: the partition without groups whose only
run is [13,12,11] in Red, made of tiles of the hand with denominations in
1..13.  The run satisfies the run invariant, its block 11-13 ending at
denomination 13 has length 3, but `isLegal` does not return `true`: it
increments `counts[13]`, outside the 13-slot array. -/
theorem C12_block_ending_at_13_not_accepted :
    (∀ t ∈ [(⟨13, Red⟩ : Tile), ⟨12, Red⟩, ⟨11, Red⟩],
      t ∈ [(⟨11, Red⟩ : Tile), ⟨12, Red⟩, ⟨13, Red⟩] ∧
        1 ≤ t.denomination ∧ t.denomination ≤ 13) ∧
    RunInvariant [⟨13, Red⟩, ⟨12, Red⟩, ⟨11, Red⟩] ∧
    isLegal ⟨[⟨11, Red⟩, ⟨12, Red⟩, ⟨13, Red⟩], [], [[⟨13, Red⟩, ⟨12, Red⟩, ⟨11, Red⟩]]⟩ ≠
      .ok true :=
  ⟨by decide, RunInvariant_13_12_11, by
    have h : isLegal ⟨[⟨11, Red⟩, ⟨12, Red⟩, ⟨13, Red⟩], [],
        [[⟨13, Red⟩, ⟨12, Red⟩, ⟨11, Red⟩]]⟩ = .error Fault.outOfBounds := rfl
    rw [h]
    simp⟩

/-- C13, evaluated at the failing input: counting the run [13,12,11], whose
denominations are in 1..13, selects the slot `counts[13]` for the first tile,
outside the bounds 0..12 of the array. -/
theorem C13_slot_13_out_of_bounds :
    (∀ t ∈ [(⟨13, Red⟩ : Tile), ⟨12, Red⟩, ⟨11, Red⟩],
      1 ≤ t.denomination ∧ t.denomination ≤ 13) ∧
    countRun Red [⟨13, Red⟩, ⟨12, Red⟩, ⟨11, Red⟩] (List.replicate 13 0) =
      .error Fault.outOfBounds ∧
    ¬ ((⟨13, Red⟩ : Tile).denomination.toNat < (List.replicate 13 0).length) :=
  ⟨by decide, rfl, by decide⟩

/-- C18, the claim as stated fails: a partition holding an empty group next
to a legal run.  `isLegal` returns `true`, because the size test of a group
sits inside the loop over the tiles of the group, and the group has neither
size 3 nor size 4. -/
theorem C18_empty_group_accepted :
    isLegal ⟨[⟨1, Red⟩, ⟨2, Red⟩, ⟨3, Red⟩], [[]], [[⟨3, Red⟩, ⟨2, Red⟩, ⟨1, Red⟩]]⟩ =
      .ok true ∧
    ([] : List Tile) ∈
      (⟨[⟨1, Red⟩, ⟨2, Red⟩, ⟨3, Red⟩], [[]], [[⟨3, Red⟩, ⟨2, Red⟩, ⟨1, Red⟩]]⟩ :
        RummiKub)._groups ∧
    ¬ (([] : List Tile).length = 3 ∨ ([] : List Tile).length = 4) :=
  ⟨rfl, by simp, by decide⟩

/-- C18 as amended: for every partition state and hand, if `isLegal` returns
`true` then every non-empty group has size 3 or 4; and the search never holds
an empty group, so if the state is reached by placing the tiles of any working
hand from a freshly constructed, loaded solver, every group has size 3 or 4. -/
theorem C18_group_size (s : RummiKub) (h : isLegal s = .ok true) :
    (∀ g ∈ s._groups, g ≠ [] → g.length = 3 ∨ g.length = 4) ∧
    (∀ hand working : List Tile, Reach (load hand) working s →
      ∀ g ∈ s._groups, g.length = 3 ∨ g.length = 4) := by
  have hsize := (isLegal_true s h).2
  refine ⟨hsize, ?_⟩
  intro hand working hreach g hg
  have hbuilt := Reach_groups _ _ _ hreach (by
    intro g0 hg0
    rw [load_eq] at hg0
    exact absurd hg0 (List.not_mem_nil g0)) g hg
  exact hsize g hg hbuilt.1

theorem C18_group_size_witness :
    isLegal ⟨[⟨5, Red⟩, ⟨5, Green⟩, ⟨5, Blue⟩], [[⟨5, Blue⟩, ⟨5, Green⟩, ⟨5, Red⟩]], []⟩ =
      .ok true ∧
    (∀ g ∈ (⟨[⟨5, Red⟩, ⟨5, Green⟩, ⟨5, Blue⟩], [[⟨5, Blue⟩, ⟨5, Green⟩, ⟨5, Red⟩]], []⟩ :
        RummiKub)._groups, g ≠ [] → g.length = 3 ∨ g.length = 4) ∧
    (∀ hand working : List Tile,
      Reach (load hand) working
        ⟨[⟨5, Red⟩, ⟨5, Green⟩, ⟨5, Blue⟩], [[⟨5, Blue⟩, ⟨5, Green⟩, ⟨5, Red⟩]], []⟩ →
      ∀ g ∈ (⟨[⟨5, Red⟩, ⟨5, Green⟩, ⟨5, Blue⟩], [[⟨5, Blue⟩, ⟨5, Green⟩, ⟨5, Red⟩]], []⟩ :
        RummiKub)._groups, g.length = 3 ∨ g.length = 4) :=
  ⟨rfl, C18_group_size
    ⟨[⟨5, Red⟩, ⟨5, Green⟩, ⟨5, Blue⟩], [[⟨5, Blue⟩, ⟨5, Green⟩, ⟨5, Red⟩]], []⟩ rfl⟩

end Rummikub
